import Mathlib

/-!
Verification of the field-to-document matching and scoring engine
(`field_mapper.py` and `step3_semantic_retrieval.py`).

Strings are modelled as Lean `String`s over their character lists; Python
floats are modelled as rationals (`ℚ`); Python dicts with string keys are
modelled as association lists in insertion order; Python `None`-returning
functions return `Option`.  ASCII case mapping models Python `str.lower()`
on the character data the engine manipulates.
-/

namespace CIDC

/-- ASCII lower-casing of a single character, models Python `str.lower`
restricted to ASCII (spelled out per letter so facts about it follow by
case analysis). -/
def lowerChar (c : Char) : Char :=
  if c = 'A' then 'a' else if c = 'B' then 'b' else if c = 'C' then 'c'
  else if c = 'D' then 'd' else if c = 'E' then 'e' else if c = 'F' then 'f'
  else if c = 'G' then 'g' else if c = 'H' then 'h' else if c = 'I' then 'i'
  else if c = 'J' then 'j' else if c = 'K' then 'k' else if c = 'L' then 'l'
  else if c = 'M' then 'm' else if c = 'N' then 'n' else if c = 'O' then 'o'
  else if c = 'P' then 'p' else if c = 'Q' then 'q' else if c = 'R' then 'r'
  else if c = 'S' then 's' else if c = 'T' then 't' else if c = 'U' then 'u'
  else if c = 'V' then 'v' else if c = 'W' then 'w' else if c = 'X' then 'x'
  else if c = 'Y' then 'y' else if c = 'Z' then 'z' else c

/-- Models Python `s.lower()`. -/
def toLowerStr (s : String) : String := String.mk (s.data.map lowerChar)

/-- A regex `\w` character: letter, digit or underscore. -/
def isWordChar (c : Char) : Bool := c.isAlphanum || c = '_'

/-- Maximal runs of `keep`-characters; `cur` is the (reversed) run being
accumulated. -/
def runsAux (keep : Char → Bool) (cur : List Char) : List Char → List (List Char)
  | [] => if cur = [] then [] else [cur.reverse]
  | c :: cs =>
    if keep c then runsAux keep (c :: cur) cs
    else if cur = [] then runsAux keep [] cs
    else cur.reverse :: runsAux keep [] cs

def splitRuns (keep : Char → Bool) (l : List Char) : List (List Char) :=
  runsAux keep [] l

/-- Models Python `re.findall(r'\w+', s)`. -/
def wordTokens (s : String) : List String :=
  (splitRuns isWordChar s.data).map String.mk

/-- Models Python `s.split()` (split on whitespace runs, dropping empties). -/
def wsTokens (s : String) : List String :=
  (splitRuns (fun c => !c.isWhitespace) s.data).map String.mk

/-- `needle` occurs as a contiguous sublist of `haystack`. -/
def infixOfCL (needle : List Char) : List Char → Bool
  | [] => needle.isEmpty
  | c :: cs => needle.isPrefixOf (c :: cs) || infixOfCL needle cs

/-- Models the Python substring test `needle in haystack`. -/
def containsStr (needle haystack : String) : Bool :=
  infixOfCL needle.data haystack.data

/-- Models Python `s.strip()`. -/
def stripStr (s : String) : String :=
  String.mk (((s.data.dropWhile Char.isWhitespace).reverse.dropWhile
    Char.isWhitespace).reverse)

/-- Split at every `.`, `!`, `?`, keeping empty segments — models
`re.split(r'[.!?]', content)`. -/
def splitDelimAux (cur : List Char) : List Char → List (List Char)
  | [] => [cur.reverse]
  | c :: cs =>
    if c = '.' ∨ c = '!' ∨ c = '?' then cur.reverse :: splitDelimAux [] cs
    else splitDelimAux (c :: cur) cs

def splitSentences (s : String) : List String :=
  (splitDelimAux [] s.data).map String.mk

/-- Models Python `dict.get(k)` on an insertion-ordered mapping. -/
def dictGet (m : List (String × String)) (k : String) : Option String :=
  List.lookup k m

/-- Models Python `dict.get(k, d)`. -/
def dictGetD (m : List (String × String)) (k d : String) : String :=
  (dictGet m k).getD d

/-- Python truthiness of an optional string (`None` and `""` are falsy). -/
def truthy (o : Option String) : Bool :=
  match o with | some v => v ≠ "" | none => false

/-- A field record: the engine reads keys `name` and `context` (via
`field.get`, so a missing key is the empty string); `id` is carried by the
caller but never read by the engine. -/
structure FormField where
  id : String := ""
  name : String := ""
  context : String := ""
deriving DecidableEq

/-- A document record: `content` and `metadata` are read via `doc.get` with
empty defaults, so a missing key coincides with the empty value. -/
structure Document where
  id : String := ""
  content : String := ""
  metadata : List (String × String) := []
deriving DecidableEq

/-! ## Scoring engine (`field_mapper.py`, class `FieldMapper`)

`FieldMapper.__init__` stores the constructor argument as `self.domain` and
computes `self.match_patterns = self._initialize_patterns()`.  That method
ends in `patterns.get(domain, {})`, but the bare name `domain` is not
defined in its scope (it never reads `self.domain`), so Python raises
`NameError` and no `FieldMapper` is ever constructed: construction is
modelled by `mkFieldMapper` returning `Except.error`.  The methods
themselves are modelled as functions of an explicit instance state
(`FieldMapper`), since their bodies are well-defined given
`self.match_patterns`. -/

/-- Features extracted from a field for matching (`FieldFeatures`). -/
structure FieldFeatures where
  field_name : String
  tokens : List String
  length : Nat
  has_numbers : Bool
  has_special_chars : Bool
  category : String
  domain_keywords : List String
deriving DecidableEq

/-- The per-domain pattern tables of `FieldMapper._initialize_patterns`. -/
def patternTable : List (String × List (String × List String)) :=
  [("real_estate",
     [("property", ["address", "location", "property", "premises", "land", "real estate"]),
      ("party", ["seller", "buyer", "grantor", "grantee", "owner", "name"]),
      ("financial", ["price", "consideration", "amount", "cost", "payment"]),
      ("recording", ["deed", "book", "page", "reference", "instrument", "number"]),
      ("temporal", ["date", "closing", "settlement", "commencement"])]),
   ("medical",
     [("demographic", ["name", "patient", "age", "birth", "dob", "id"]),
      ("clinical", ["diagnosis", "condition", "disease", "code", "icd"]),
      ("treatment", ["medication", "drug", "prescription", "rx", "therapy"]),
      ("safety", ["allergy", "adverse", "reaction", "intolerance", "contraindication"]),
      ("vital", ["blood pressure", "heart rate", "temperature", "weight", "height"])]),
   ("insurance",
     [("policy", ["policy", "number", "id", "contract"]),
      ("party", ["policyholder", "beneficiary", "insured", "recipient"]),
      ("coverage", ["limit", "coverage", "benefit", "amount"]),
      ("financial", ["premium", "deductible", "payment", "rate"])]),
   ("finance",
     [("financial", ["revenue", "expense", "income", "cost", "profit"]),
      ("accounting", ["account", "ledger", "journal", "entry", "code"]),
      ("tax", ["tax", "liability", "deduction", "rate", "filing"])]),
   ("legal",
     [("party", ["party", "parties", "entity", "person", "organization"]),
      ("obligation", ["obligation", "liability", "responsibility", "duty"]),
      ("termination", ["termination", "end date", "expiration", "renewal"])])]

/-- `FieldMapper._initialize_patterns`: builds the literal `patterns` table
(`patternTable`) and then evaluates `patterns.get(domain, {})`.  The name
`domain` is undefined in the method's scope — the constructor argument
lives only in `self.domain`, which this method never reads — so execution
raises `NameError` (message rendered without Python's quotes) before any
lookup can happen, whatever the stored domain is. -/
def _initialize_patterns (_self_domain : String) :
    Except String (List (String × List String)) :=
  Except.error "NameError: name domain is not defined"

/-- The instance state a `FieldMapper` would carry: the stored domain and
the computed `match_patterns` table. -/
structure FieldMapper where
  domain : String
  match_patterns : List (String × List String)
deriving DecidableEq

/-- `FieldMapper.__init__`: stores `domain` and computes
`self.match_patterns = self._initialize_patterns()`; the `NameError`
raised there propagates, so construction never succeeds. -/
def mkFieldMapper (domain : String) : Except String FieldMapper :=
  match _initialize_patterns domain with
  | Except.ok mp => Except.ok ⟨domain, mp⟩
  | Except.error e => Except.error e

/-- `FieldMapper._categorize_field`: first category (in table order) one of
whose keywords is a substring of the lowercased field name. -/
def _categorize_field (mp : List (String × List String)) (field_name : String) : String :=
  let field_lower := toLowerStr field_name
  match mp.find?
      (fun p => p.2.any (fun keyword => containsStr keyword field_lower)) with
  | some p => p.1
  | none => "general"

/-- `FieldMapper._extract_domain_keywords`: every table keyword (category
order, then word order) occurring in the lowercased field name. -/
def _extract_domain_keywords (mp : List (String × List String))
    (field_name : String) : List String :=
  let field_lower := toLowerStr field_name
  (mp.flatMap Prod.snd).filter
    (fun word => containsStr word field_lower)

/-- `FieldMapper.extract_features`. -/
def extract_features (mp : List (String × List String))
    (field_name context : String) : FieldFeatures :=
  let full_text := toLowerStr (field_name ++ " " ++ context)
  let tokens := wordTokens full_text
  { field_name := field_name
    tokens := tokens
    length := tokens.length
    has_numbers := field_name.data.any Char.isDigit
    has_special_chars := field_name.data.any
      (fun c => ¬ (isWordChar c || c.isWhitespace))
    category := _categorize_field mp field_name
    domain_keywords := _extract_domain_keywords mp field_name }

/-- `FieldMapper._calculate_token_overlap`: Jaccard similarity between the
field token set and the document content token set. -/
def _calculate_token_overlap (field_tokens : List String) (doc_content : String) : ℚ :=
  if field_tokens = [] then 0
  else
    let doc_tokens := (wordTokens doc_content).toFinset
    let field_token_set := field_tokens.toFinset
    let intersection := (field_token_set ∩ doc_tokens).card
    let union := (field_token_set ∪ doc_tokens).card
    if union = 0 then 0 else (intersection : ℚ) / union

/-- `FieldMapper._calculate_category_match`. -/
def _calculate_category_match (mp : List (String × List String))
    (category doc_content : String) : ℚ :=
  match List.lookup category mp with
  | none => 0
  | some keywords =>
    let nmatches := keywords.countP (fun kw => containsStr kw doc_content)
    if keywords = [] then 0 else min ((nmatches : ℚ) / keywords.length) 1

/-- `FieldMapper._calculate_keyword_match`. -/
def _calculate_keyword_match (domain_keywords : List String) (doc_content : String) : ℚ :=
  if domain_keywords = [] then 0
  else
    let nmatches := domain_keywords.countP (fun kw => containsStr kw doc_content)
    min ((nmatches : ℚ) / domain_keywords.length) 1

/-- `FieldMapper._calculate_metadata_match`: 0.5 when the (present) `type`
value contains the category, plus 0.1 per field token occurring in the
(present) `section` value, capped at 1. -/
def _calculate_metadata_match (ff : FieldFeatures)
    (doc_metadata : List (String × String)) : ℚ :=
  let score : ℚ := 0
  let score := match dictGet doc_metadata "type" with
    | some v => if containsStr ff.category (toLowerStr v) then score + 1/2 else score
    | none => score
  let score := match dictGet doc_metadata "section" with
    | some v =>
      score + (ff.tokens.countP (fun token => containsStr token (toLowerStr v)) : ℚ) * (1/10)
    | none => score
  min score 1

/-- A knowledge base as consumed by the scorer: canonical-form lookup and
related-term lookup (`DomainKnowledgeBase.normalize_term` /
`get_related_terms` in `knowledge_bases.py`). -/
structure KnowledgeBase where
  normalize_term : String → Option String
  get_related_terms : String → List String

/-- `FieldMapper._calculate_kb_match` (the caller guarantees a knowledge
base is present; Python truthiness makes `None` and `""` both "no
canonical form"). -/
def _calculate_kb_match (field_name doc_content : String) (kb : KnowledgeBase) : ℚ :=
  match kb.normalize_term field_name with
  | some normalized =>
    if normalized ≠ "" then
      if containsStr (toLowerStr normalized) doc_content then 4/5
      else
        let related := kb.get_related_terms field_name
        let nmatches := related.countP (fun term => containsStr (toLowerStr term) doc_content)
        if nmatches > 0 then 1/2 else 0
    else 0
  | none => 0

/-- `FieldMapper.match_field_to_document`: weighted average of the
sub-scores (the KB factor, weight 0.10, enters numerator and denominator
only when a knowledge base is supplied), clamped to at most 1. -/
def match_field_to_document (mapper : FieldMapper) (field : FormField)
    (document : Document) (knowledge_base : Option KnowledgeBase) : ℚ :=
  let field_name := field.name
  let field_features := extract_features mapper.match_patterns field_name field.context
  let doc_content := toLowerStr document.content
  let doc_metadata := document.metadata
  let scores : List (String × ℚ × ℚ) :=
    [("token_overlap", _calculate_token_overlap field_features.tokens doc_content, (1/4 : ℚ)),
     ("category_match", _calculate_category_match mapper.match_patterns field_features.category doc_content, (1/4 : ℚ)),
     ("keyword_match", _calculate_keyword_match field_features.domain_keywords doc_content, (1/4 : ℚ)),
     ("metadata_match", _calculate_metadata_match field_features doc_metadata, (3/20 : ℚ))]
    ++ (match knowledge_base with
        | some kb => [("kb_match", _calculate_kb_match field_name doc_content kb, (1/10 : ℚ))]
        | none => [])
  let weighted_score := scores.foldl (fun acc s => acc + s.2.1 * s.2.2) (0 : ℚ)
  let total_weight := scores.foldl (fun acc s => acc + s.2.2) (0 : ℚ)
  let final_score := if total_weight > 0 then weighted_score / total_weight else 0
  min final_score 1

/-- Stable descending insertion (by score): an element is placed before the
first element whose score it meets or exceeds, so earlier-listed elements
stay ahead of equal-scored later ones. -/
def insertDesc {α : Type} (x : α × ℚ) : List (α × ℚ) → List (α × ℚ)
  | [] => [x]
  | y :: l => if x.2 ≥ y.2 then x :: y :: l else y :: insertDesc x l

/-- Stable sort, descending by score — models Python's stable
`list.sort(key=lambda x: x[1], reverse=True)`. -/
def sortDesc {α : Type} : List (α × ℚ) → List (α × ℚ)
  | [] => []
  | x :: l => insertDesc x (sortDesc l)

/-- `FieldMapper.rank_documents_for_field`: score every document, keep
positive scores, sort stably by descending score, return the first
`top_k`. -/
def rank_documents_for_field (mapper : FieldMapper) (field : FormField)
    (documents : List Document) (knowledge_base : Option KnowledgeBase)
    (top_k : Nat) : List (Document × ℚ) :=
  let scores := (documents.map
      (fun doc => (doc, match_field_to_document mapper field doc knowledge_base))).filter
    (fun p => p.2 > 0)
  (sortDesc scores).take top_k

/-- Token-set Jaccard similarity of one candidate against the field-token
set, as computed inside `FieldMapper.disambiguate_field`. -/
def candSim (field_tokens : Finset String) (candidate : String) : ℚ :=
  let candidate_tokens := (wordTokens (toLowerStr candidate)).toFinset
  let intersection := (field_tokens ∩ candidate_tokens).card
  let union := (field_tokens ∪ candidate_tokens).card
  if union > 0 then (intersection : ℚ) / union else 0

/-- The candidate loop of `FieldMapper.disambiguate_field`: strict
improvement keeps the first-seen maximizer; candidates with both token
sets empty are skipped. -/
def disambGo (field_tokens : Finset String) (best_match : Option String)
    (best_score : ℚ) : List String → Option String × ℚ
  | [] => (best_match, best_score)
  | candidate :: rest =>
    let candidate_tokens := (wordTokens (toLowerStr candidate)).toFinset
    if field_tokens ≠ ∅ ∨ candidate_tokens ≠ ∅ then
      let similarity := candSim field_tokens candidate
      if similarity > best_score then disambGo field_tokens (some candidate) similarity rest
      else disambGo field_tokens best_match best_score rest
    else disambGo field_tokens best_match best_score rest

/-- `FieldMapper.disambiguate_field`. -/
def disambiguate_field (field_name : String) (candidates : List String) : Option String :=
  match candidates with
  | [] => none
  | [c] => some c
  | _ =>
    let field_tokens := (wordTokens (toLowerStr field_name)).toFinset
    let (best_match, best_score) := disambGo field_tokens none 0 candidates
    if best_score > 0 then best_match else none

/-! ## Matching pipeline (`step3_semantic_retrieval.py`, class
`SemanticRetriever`)

Instance state is just the configured `domain` (the `query_cache` and
`match_history` attributes are never read), passed explicitly. -/

/-- A successful field-to-document match (`RetrievalMatch`).  The two
`match_reason` format strings render their score with `toString` in place
of Python's `:.2f`; no claim concerns that text. -/
structure RetrievalMatch where
  field_id : String
  field_name : String
  source_doc_id : String
  retrieved_value : Option String
  confidence_score : ℚ
  match_type : String
  match_reason : String
  domain_context : String
deriving DecidableEq

/-- The query string `f"{field_name} {field_context}"` built by
`SemanticRetriever.retrieve`. -/
def queryOf (field : FormField) : String := field.name ++ " " ++ field.context

/-- `SemanticRetriever._calculate_similarity_score`: Jaccard similarity of
the whitespace-split term sets. -/
def _calculate_similarity_score (query content : String) : ℚ :=
  let query_terms := (wsTokens query).toFinset
  let content_terms := (wsTokens content).toFinset
  if query_terms = ∅ ∨ content_terms = ∅ then 0
  else
    let intersection := (query_terms ∩ content_terms).card
    let union := (query_terms ∪ content_terms).card
    if union > 0 then (intersection : ℚ) / union else 0

/-- `SemanticRetriever._extract_value_from_match`, sentence loop: first
segment that contains a field keyword and whose stripped form has length
strictly between 10 and 500. -/
def extractGo (field_keywords : List String) : List String → Option String
  | [] => none
  | sentence :: rest =>
    if field_keywords.any (fun kw => containsStr kw (toLowerStr sentence)) then
      let extracted := stripStr sentence
      if extracted.length > 10 ∧ extracted.length < 500 then some extracted
      else extractGo field_keywords rest
    else extractGo field_keywords rest

/-- `SemanticRetriever._extract_value_from_match`. -/
def _extract_value_from_match (field_name content : String) : Option String :=
  let sentences := splitSentences content
  let field_keywords := wsTokens (toLowerStr field_name)
  extractGo field_keywords sentences

/-- The document loop of `SemanticRetriever._semantic_match`: keep the
first document attaining the highest positive similarity. -/
def semanticBest (query : String) (best_match : Option Document)
    (highest_score : ℚ) : List Document → Option Document × ℚ
  | [] => (best_match, highest_score)
  | doc :: rest =>
    let content := toLowerStr doc.content
    let score := _calculate_similarity_score (toLowerStr query) content
    if score > highest_score ∧ score > 0 then semanticBest query (some doc) score rest
    else semanticBest query best_match highest_score rest

/-- `SemanticRetriever._semantic_match`.  The Python `query.split()[0]` is
modelled by `headD ""`; the pipeline never builds a match when the token
list is empty (proved below), so the default is never consulted. -/
def _semantic_match (query : String) (documents : List Document) :
    Option RetrievalMatch :=
  let r := semanticBest query none 0 documents
  match r.1 with
  | some best =>
    if r.2 > 0 then
      some { field_id := (wsTokens query).headD ""
             field_name := query
             source_doc_id := best.id
             retrieved_value := _extract_value_from_match query best.content
             confidence_score := min r.2 1
             match_type := "semantic"
             match_reason := "Content similarity: " ++ toString r.2
             domain_context := dictGetD best.metadata "type" "" }
    else none
  | none => none

/-- `[A-Z][a-z]+` at the head of the character list: an upper-case letter
followed by a maximal nonempty run of lower-case letters. -/
def matchCapWord : List Char → Option (List Char × List Char)
  | [] => none
  | c :: cs =>
    if c.isUpper then
      let p := cs.span Char.isLower
      if p.1 = [] then none else some (c :: p.1, p.2)
    else none

/-- Greedy `(?:\s+[A-Z][a-z]+)*\b` continuation after a matched word
(`acc`); a failed trailing word boundary drops the last group, exactly as
the regex engine backtracks.  `fuel` only forces termination: every
recursive step consumes at least one character, so `rest.length + 1` fuel
is never exhausted. -/
def matchGroups (acc : List Char) : Nat → List Char → Option (List Char × List Char)
  | 0, rest => some (acc, rest)
  | fuel + 1, rest =>
    let p := rest.span Char.isWhitespace
    if p.1 = [] then
      match rest with
      | [] => some (acc, [])
      | d :: _ => if isWordChar d then none else some (acc, rest)
    else
      match matchCapWord p.2 with
      | some (w, rest2) =>
        match matchGroups (acc ++ p.1 ++ w) fuel rest2 with
        | some r => some r
        | none => some (acc, rest)
      | none => some (acc, rest)

/-- One attempt of `\b[A-Z][a-z]+(?:\s+[A-Z][a-z]+)*\b` at the current
position (the caller has checked the leading word boundary). -/
def matchEntityAt (l : List Char) : Option (List Char × List Char) :=
  match matchCapWord l with
  | some (w, rest) => matchGroups w (rest.length + 1) rest
  | none => none

/-- Left-to-right scan of `re.findall` for the capitalized-run pattern;
`prevWord` tracks whether the previous character was a word character (for
the leading `\b`).  `fuel` only forces termination (each step consumes at
least one character). -/
def capRunsAux (prevWord : Bool) : Nat → List Char → List (List Char)
  | _, [] => []
  | 0, _ => []
  | fuel + 1, c :: cs =>
    if ¬ prevWord ∧ c.isUpper then
      match matchEntityAt (c :: cs) with
      | some (m, rest) => m :: capRunsAux true fuel rest
      | none => capRunsAux (isWordChar c) fuel cs
    else capRunsAux (isWordChar c) fuel cs

/-- `SemanticRetriever._extract_entities`: capitalized word sequences plus
whitespace-split words longer than 3 characters, deduplicated (Python's
`list(set(...))`; every downstream use is order-invariant, so first-seen
order stands in for the unspecified set order). -/
def _extract_entities (text : String) : List String :=
  let fromPattern := (capRunsAux false (text.data.length + 1) text.data).map String.mk
  let fromWords := (wsTokens text).filter (fun word => word.length > 3)
  (fromPattern ++ fromWords).dedup

/-- The document loop of `SemanticRetriever._entity_match`: the first
document in which a positive number of entities occurs with ratio at least
0.5 wins. -/
def entityGo (field_name : String) (entities : List String) :
    List Document → Option RetrievalMatch
  | [] => none
  | doc :: rest =>
    let content := doc.content
    let metadata := doc.metadata
    let entity_matches := entities.countP
      (fun entity => containsStr (toLowerStr entity) (toLowerStr content))
    if entity_matches > 0 then
      let confidence := min ((entity_matches : ℚ) / entities.length) 1
      if confidence ≥ 1/2 then
        some { field_id := field_name
               field_name := field_name
               source_doc_id := doc.id
               retrieved_value := _extract_value_from_match field_name content
               confidence_score := confidence
               match_type := "entity"
               match_reason := "Entity match: " ++ toString entity_matches ++ "/"
                 ++ toString entities.length ++ " entities found"
               domain_context := dictGetD metadata "type" "" }
      else entityGo field_name entities rest
    else entityGo field_name entities rest

/-- `SemanticRetriever._entity_match`. -/
def _entity_match (field_name : String) (documents : List Document) :
    Option RetrievalMatch :=
  let entities := _extract_entities field_name
  if entities = [] then none
  else entityGo field_name entities documents

/-- The per-domain rule tables of `SemanticRetriever._domain_rule_match`. -/
def domain_rules : List (String × List (String × List String)) :=
  [("real_estate",
     [("property", ["deed", "property description", "address"]),
      ("seller", ["seller name", "grantor", "owner"]),
      ("deed reference", ["instrument number", "book", "page"])]),
   ("medical",
     [("patient name", ["patient", "name"]),
      ("age", ["age", "dob", "birth"]),
      ("diagnosis", ["diagnosis", "condition", "code"]),
      ("medications", ["medication", "drug", "prescription", "rx"])]),
   ("insurance",
     [("policy number", ["policy", "number", "id"]),
      ("beneficiary", ["beneficiary", "dependent", "name"]),
      ("coverage", ["coverage", "limit", "amount", "benefit"])])]

/-- The document loop of `SemanticRetriever._domain_rule_match` for one
matched rule category: the first document with a truthy `section` or
`type` metadata value whose content contains a rule keyword wins, at the
fixed confidence 0.72. -/
def ruleDocGo (field_name rule_category : String) (keywords : List String) :
    List Document → Option RetrievalMatch
  | [] => none
  | doc :: rest =>
    let content := doc.content
    let metadata := doc.metadata
    if truthy (dictGet metadata "section") || truthy (dictGet metadata "type") then
      if keywords.any (fun kw => containsStr (toLowerStr kw) (toLowerStr content)) then
        some { field_id := field_name
               field_name := field_name
               source_doc_id := doc.id
               retrieved_value := _extract_value_from_match field_name content
               confidence_score := 18/25
               match_type := "rule-based"
               match_reason := "Domain rule matched: " ++ rule_category
               domain_context := dictGetD metadata "type" "" }
      else ruleDocGo field_name rule_category keywords rest
    else ruleDocGo field_name rule_category keywords rest

/-- The rule-category loop of `SemanticRetriever._domain_rule_match`: a
category whose keyword occurs in the field name is tried against the
documents; with no winning document the next category is tried. -/
def ruleCatGo (field_name : String) (documents : List Document) :
    List (String × List String) → Option RetrievalMatch
  | [] => none
  | (rule_category, keywords) :: rest =>
    if keywords.any (fun kw => containsStr (toLowerStr kw) (toLowerStr field_name)) then
      match ruleDocGo field_name rule_category keywords documents with
      | some m => some m
      | none => ruleCatGo field_name documents rest
    else ruleCatGo field_name documents rest

/-- `SemanticRetriever._domain_rule_match`. -/
def _domain_rule_match (domain field_name : String) (documents : List Document) :
    Option RetrievalMatch :=
  ruleCatGo field_name documents ((List.lookup domain domain_rules).getD [])

/-- The document loop of `SemanticRetriever._enhanced_keyword_match`:
Jaccard similarity over regex tokens of the query against content plus
stringified metadata values, boosted by 1.2 when the truthy `section`
value occurs in the query; the first document attaining the strictly
highest score wins. -/
def keywordBest (query : String) (query_keywords : Finset String)
    (best_match : Option Document) (highest_score : ℚ) :
    List Document → Option Document × ℚ
  | [] => (best_match, highest_score)
  | doc :: rest =>
    let content := toLowerStr doc.content
    let metadata := doc.metadata
    let searchable := content ++ " " ++ String.intercalate " " (metadata.map Prod.snd)
    let doc_keywords := (wordTokens searchable).toFinset
    if query_keywords ≠ ∅ ∨ doc_keywords ≠ ∅ then
      let intersection := (query_keywords ∩ doc_keywords).card
      let union := (query_keywords ∪ doc_keywords).card
      let similarity : ℚ := if union > 0 then (intersection : ℚ) / union else 0
      let similarity :=
        if truthy (dictGet metadata "section") ∧
            containsStr (toLowerStr (dictGetD metadata "section" "")) (toLowerStr query)
        then similarity * (6/5) else similarity
      if similarity > highest_score then keywordBest query query_keywords (some doc) similarity rest
      else keywordBest query query_keywords best_match highest_score rest
    else keywordBest query query_keywords best_match highest_score rest

/-- `SemanticRetriever._enhanced_keyword_match`; the internal gate is
`highest_score > 0.2` and the confidence is the (possibly boosted) score,
not clamped.  `query.split()[0]` is modelled by `headD ""` as in
`_semantic_match`. -/
def _enhanced_keyword_match (query : String) (documents : List Document) :
    Option RetrievalMatch :=
  let query_keywords := (wordTokens (toLowerStr query)).toFinset
  let r := keywordBest query query_keywords none 0 documents
  match r.1 with
  | some best =>
    if r.2 > 1/5 then
      some { field_id := (wsTokens query).headD ""
             field_name := query
             source_doc_id := best.id
             retrieved_value := _extract_value_from_match query best.content
             confidence_score := r.2
             match_type := "keyword"
             match_reason := "Keyword overlap: " ++ toString r.2
             domain_context := dictGetD best.metadata "type" "" }
    else none
  | none => none

/-- Acceptance test of `SemanticRetriever.retrieve`:
`match and match.confidence_score >= threshold`. -/
def acceptsB (r : Option RetrievalMatch) (threshold : ℚ) : Bool :=
  match r with
  | some m => threshold ≤ m.confidence_score
  | none => false

/-- `SemanticRetriever.retrieve`: the four strategies in order, each
returned as soon as it clears its acceptance threshold. -/
def retrieve (domain : String) (field : FormField) (documents : List Document) :
    Option RetrievalMatch :=
  let query := queryOf field
  let semantic_match := _semantic_match query documents
  if acceptsB semantic_match (3/4) then semantic_match
  else
    let entity_match := _entity_match field.name documents
    if acceptsB entity_match (7/10) then entity_match
    else
      let domain_match := _domain_rule_match domain field.name documents
      if acceptsB domain_match (13/20) then domain_match
      else
        let keyword_match := _enhanced_keyword_match query documents
        if acceptsB keyword_match (11/20) then keyword_match
        else none

/-! ## Bounds on the individual sub-scores -/

theorem tokenOverlap_nonneg (ts : List String) (dc : String) :
    0 ≤ _calculate_token_overlap ts dc := by
  simp only [_calculate_token_overlap]
  split_ifs <;> positivity

theorem tokenOverlap_le_one (ts : List String) (dc : String) :
    _calculate_token_overlap ts dc ≤ 1 := by
  simp only [_calculate_token_overlap]
  split_ifs with h1 h2
  · norm_num
  · norm_num
  · rw [div_le_one (by positivity)]
    have hsub : ts.toFinset ∩ (wordTokens dc).toFinset ⊆
        ts.toFinset ∪ (wordTokens dc).toFinset :=
      Finset.inter_subset_left.trans Finset.subset_union_left
    exact_mod_cast Finset.card_le_card hsub

theorem categoryMatch_nonneg (mp : List (String × List String)) (category dc : String) :
    0 ≤ _calculate_category_match mp category dc := by
  simp only [_calculate_category_match]
  split
  · exact le_refl 0
  · split_ifs
    · exact le_refl 0
    · exact le_min (by positivity) (by norm_num)

theorem categoryMatch_le_one (mp : List (String × List String)) (category dc : String) :
    _calculate_category_match mp category dc ≤ 1 := by
  simp only [_calculate_category_match]
  split
  · norm_num
  · split_ifs
    · norm_num
    · exact min_le_right _ _

theorem keywordMatch_nonneg (kws : List String) (dc : String) :
    0 ≤ _calculate_keyword_match kws dc := by
  simp only [_calculate_keyword_match]
  split_ifs
  · norm_num
  · exact le_min (by positivity) (by norm_num)

theorem keywordMatch_le_one (kws : List String) (dc : String) :
    _calculate_keyword_match kws dc ≤ 1 := by
  simp only [_calculate_keyword_match]
  split_ifs
  · norm_num
  · exact min_le_right _ _

theorem metadataMatch_nonneg (ff : FieldFeatures) (md : List (String × String)) :
    0 ≤ _calculate_metadata_match ff md := by
  simp only [_calculate_metadata_match]
  refine le_min ?_ (by norm_num)
  split <;> split <;> (try split_ifs) <;> positivity

theorem metadataMatch_le_one (ff : FieldFeatures) (md : List (String × String)) :
    _calculate_metadata_match ff md ≤ 1 :=
  min_le_right _ _

theorem kbMatch_nonneg (fn dc : String) (kb : KnowledgeBase) :
    0 ≤ _calculate_kb_match fn dc kb := by
  simp only [_calculate_kb_match]
  split <;> (try split_ifs) <;> norm_num

theorem kbMatch_le_one (fn dc : String) (kb : KnowledgeBase) :
    _calculate_kb_match fn dc kb ≤ 1 := by
  simp only [_calculate_kb_match]
  split <;> (try split_ifs) <;> norm_num

/-- C8: the method body of `match_field_to_document` computes a score in
`[0, 1]` on every instance state, field, document, domain table and
optional knowledge base — but the program can never observe one, because
`FieldMapper.__init__` always raises `NameError` (the undefined name
`domain` in `_initialize_patterns`), for every domain: a code bug, since
the spec promises degraded scoring rather than failure and the module's
own demo block constructs a `FieldMapper`. -/
theorem C8_score_in_unit_interval :
    (∀ domain : String,
      mkFieldMapper domain = Except.error "NameError: name domain is not defined") ∧
    (∀ (mapper : FieldMapper) (field : FormField) (document : Document)
      (kb : Option KnowledgeBase),
      0 ≤ match_field_to_document mapper field document kb ∧
        match_field_to_document mapper field document kb ≤ 1) := by
  refine ⟨fun domain => rfl, fun mapper field document kb => ?_⟩
  constructor
  · simp only [match_field_to_document]
    have h1 := tokenOverlap_nonneg
      (extract_features mapper.match_patterns field.name field.context).tokens
      (toLowerStr document.content)
    have h2 := categoryMatch_nonneg mapper.match_patterns
      (extract_features mapper.match_patterns field.name field.context).category
      (toLowerStr document.content)
    have h3 := keywordMatch_nonneg
      (extract_features mapper.match_patterns field.name field.context).domain_keywords
      (toLowerStr document.content)
    have h4 := metadataMatch_nonneg
      (extract_features mapper.match_patterns field.name field.context) document.metadata
    cases kb with
    | none =>
      simp only [List.append_nil, List.foldl_cons, List.foldl_nil]
      refine le_min ?_ (by norm_num)
      split_ifs with h
      · apply div_nonneg (by linarith) (by linarith)
      · exact le_refl 0
    | some k =>
      have h5 := kbMatch_nonneg field.name (toLowerStr document.content) k
      simp only [List.cons_append, List.nil_append, List.foldl_cons, List.foldl_nil]
      refine le_min ?_ (by norm_num)
      split_ifs with h
      · apply div_nonneg (by linarith) (by linarith)
      · exact le_refl 0
  · exact min_le_right _ _

/-! ## Claim C1: scoring with a no-match knowledge base vs. without one -/

/-- A knowledge base whose lookup finds no canonical form and no related
terms for any field. -/
def kbNoMatch : KnowledgeBase := ⟨fun _ => none, fun _ => []⟩

/-- C1, counterexample.  The claim fails on both levels.  At the program
level no "final score" is ever produced: constructing the `FieldMapper`
raises `NameError`.  At the level of the method body, on an explicit
instance state (here domain `generic` with its empty table), the field `a`
against a document with content `a` scores 1/4 with a no-match knowledge
base but 5/18 without one — the two paths divide the same weighted sum by
different total weights (1.0 vs 0.9), so the claimed equality fails. -/
theorem C1_counterexample :
    mkFieldMapper "generic" = Except.error "NameError: name domain is not defined" ∧
    _calculate_kb_match "a" (toLowerStr "a") kbNoMatch = 0 ∧
    match_field_to_document ⟨"generic", []⟩ ⟨"", "a", ""⟩ ⟨"d", "a", []⟩ (some kbNoMatch) = 1/4 ∧
    match_field_to_document ⟨"generic", []⟩ ⟨"", "a", ""⟩ ⟨"d", "a", []⟩ none = 5/18 ∧
    match_field_to_document ⟨"generic", []⟩ ⟨"", "a", ""⟩ ⟨"d", "a", []⟩ (some kbNoMatch) ≠
      match_field_to_document ⟨"generic", []⟩ ⟨"", "a", ""⟩ ⟨"d", "a", []⟩ none := by
  refine ⟨rfl, by with_unfolding_all decide, by with_unfolding_all decide,
    by with_unfolding_all decide, by with_unfolding_all decide⟩

/-- C1, amended: the scoring method is unreachable through the constructor
(`mkFieldMapper` always raises `NameError`); for the method body itself,
on any instance state, a knowledge base yielding no match for the field
(KB sub-score 0) produces exactly 9/10 of the score obtained without a
knowledge base: the weighted sum is unchanged but is divided by total
weight 1.0 instead of 0.9, so the two scores coincide only when the no-KB
score is 0. -/
theorem C1_kb_nomatch_rescales (mapper : FieldMapper) (field : FormField)
    (document : Document) (kb : KnowledgeBase)
    (h : _calculate_kb_match field.name (toLowerStr document.content) kb = 0) :
    match_field_to_document mapper field document (some kb) =
      (9/10) * match_field_to_document mapper field document none := by
  have ht0 := tokenOverlap_nonneg
    (extract_features mapper.match_patterns field.name field.context).tokens
    (toLowerStr document.content)
  have ht1 := tokenOverlap_le_one
    (extract_features mapper.match_patterns field.name field.context).tokens
    (toLowerStr document.content)
  have hc0 := categoryMatch_nonneg mapper.match_patterns
    (extract_features mapper.match_patterns field.name field.context).category
    (toLowerStr document.content)
  have hc1 := categoryMatch_le_one mapper.match_patterns
    (extract_features mapper.match_patterns field.name field.context).category
    (toLowerStr document.content)
  have hk0 := keywordMatch_nonneg
    (extract_features mapper.match_patterns field.name field.context).domain_keywords
    (toLowerStr document.content)
  have hk1 := keywordMatch_le_one
    (extract_features mapper.match_patterns field.name field.context).domain_keywords
    (toLowerStr document.content)
  have hm0 := metadataMatch_nonneg
    (extract_features mapper.match_patterns field.name field.context) document.metadata
  have hm1 := metadataMatch_le_one
    (extract_features mapper.match_patterns field.name field.context) document.metadata
  simp only [match_field_to_document, List.cons_append, List.nil_append,
    List.append_nil, List.foldl_cons, List.foldl_nil, h]
  rw [if_pos (by norm_num), if_pos (by norm_num)]
  rw [min_eq_left (by linarith), min_eq_left (by rw [div_le_one (by norm_num)]; linarith)]
  field_simp
  ring

/-- C1, witness for the amended theorem at a concrete no-match input and
explicit instance state. -/
theorem C1_kb_nomatch_rescales_witness :
    _calculate_kb_match "b" (toLowerStr "x") kbNoMatch = 0 ∧
    match_field_to_document ⟨"generic", []⟩ ⟨"", "b", ""⟩ ⟨"e", "x", []⟩ (some kbNoMatch) =
      (9/10) * match_field_to_document ⟨"generic", []⟩ ⟨"", "b", ""⟩ ⟨"e", "x", []⟩ none :=
  ⟨by with_unfolding_all decide,
   C1_kb_nomatch_rescales ⟨"generic", []⟩ ⟨"", "b", ""⟩ ⟨"e", "x", []⟩ kbNoMatch
     (by with_unfolding_all decide)⟩

/-! ## Claim C7: ranking -/

theorem insertDesc_perm {α : Type} (x : α × ℚ) (l : List (α × ℚ)) :
    List.Perm (insertDesc x l) (x :: l) := by
  induction l with
  | nil => exact List.Perm.refl _
  | cons y t ih =>
    simp only [insertDesc]
    split_ifs with h
    · exact List.Perm.refl _
    · exact (List.Perm.cons y ih).trans (List.Perm.swap x y t)

theorem sortDesc_perm {α : Type} (l : List (α × ℚ)) : List.Perm (sortDesc l) l := by
  induction l with
  | nil => exact List.Perm.refl _
  | cons x t ih => exact (insertDesc_perm x (sortDesc t)).trans (List.Perm.cons x ih)

theorem insertDesc_pairwise {α : Type} (x : α × ℚ) (l : List (α × ℚ))
    (h : l.Pairwise (fun a b => b.2 ≤ a.2)) :
    (insertDesc x l).Pairwise (fun a b => b.2 ≤ a.2) := by
  induction l with
  | nil => simp [insertDesc]
  | cons y t ih =>
    simp only [insertDesc]
    rw [List.pairwise_cons] at h
    split_ifs with hxy
    · refine List.pairwise_cons.2 ⟨?_, List.pairwise_cons.2 h⟩
      intro z hz
      rcases List.mem_cons.1 hz with rfl | hz2
      · exact hxy
      · exact le_trans (h.1 z hz2) hxy
    · push_neg at hxy
      refine List.pairwise_cons.2 ⟨?_, ih h.2⟩
      intro z hz
      rcases List.mem_cons.1 ((insertDesc_perm x t).mem_iff.1 hz) with rfl | hz2
      · exact le_of_lt hxy
      · exact h.1 z hz2

theorem sortDesc_pairwise {α : Type} (l : List (α × ℚ)) :
    (sortDesc l).Pairwise (fun a b => b.2 ≤ a.2) := by
  induction l with
  | nil => simp [sortDesc]
  | cons x t ih => exact insertDesc_pairwise x (sortDesc t) ih

/-- An element is inserted ahead only of strictly smaller scores, so the
subsequence at any fixed score value is untouched except for the new
element going first when it carries that score. -/
theorem insertDesc_filter {α : Type} (x : α × ℚ) (l : List (α × ℚ)) (c : ℚ) :
    (insertDesc x l).filter (fun p => decide (p.2 = c)) =
      if x.2 = c then x :: l.filter (fun p => decide (p.2 = c))
      else l.filter (fun p => decide (p.2 = c)) := by
  induction l with
  | nil => by_cases h : x.2 = c <;> simp [insertDesc, List.filter, h]
  | cons y t ih =>
    by_cases hxy : x.2 ≥ y.2
    · rw [insertDesc, if_pos hxy]
      simp only [List.filter_cons, decide_eq_true_eq]
    · rw [insertDesc, if_neg hxy]
      push_neg at hxy
      simp only [List.filter_cons, ih, decide_eq_true_eq]
      by_cases hx : x.2 = c
      · have hy : ¬ y.2 = c := by intro e; rw [hx, e] at hxy; exact lt_irrefl c hxy
        simp [hx, hy]
      · simp [hx]

theorem isPrefix_filter {α : Type} (p : α → Bool) {l₁ l₂ : List α}
    (h : l₁ <+: l₂) : l₁.filter p <+: l₂.filter p := by
  obtain ⟨t, rfl⟩ := h
  exact ⟨t.filter p, (List.filter_append _ _).symm⟩

theorem sortDesc_filter {α : Type} (l : List (α × ℚ)) (c : ℚ) :
    (sortDesc l).filter (fun p => decide (p.2 = c)) =
      l.filter (fun p => decide (p.2 = c)) := by
  induction l with
  | nil => rfl
  | cons x t ih =>
    rw [sortDesc, insertDesc_filter, ih, List.filter_cons]
    simp only [decide_eq_true_eq]

/-- C7: the method body of `rank_documents_for_field` does return at most
`top_k` pairs, in non-increasing score order, each pair scoring its
document positively by `match_field_to_document`, and at each fixed score
value the returned pairs form a prefix of the scored documents in input
order (ties keep the original relative order, truncation only drops a
suffix) — but the program never produces such a ranking, because
`FieldMapper.__init__` raises `NameError` on every construction: a code
bug (the module's own demo block calls this method). -/
theorem C7_rank_documents_ordered :
    (∀ domain : String,
      mkFieldMapper domain = Except.error "NameError: name domain is not defined") ∧
    (∀ (mapper : FieldMapper) (field : FormField) (documents : List Document)
      (kb : Option KnowledgeBase) (top_k : Nat),
      (rank_documents_for_field mapper field documents kb top_k).length ≤ top_k ∧
      (rank_documents_for_field mapper field documents kb top_k).Pairwise
        (fun a b => b.2 ≤ a.2) ∧
      (rank_documents_for_field mapper field documents kb top_k).all
        (fun p => decide (0 < p.2) &&
          decide (p.2 = match_field_to_document mapper field p.1 kb) &&
          decide (p.1 ∈ documents)) = true ∧
      (∀ c : ℚ,
        (rank_documents_for_field mapper field documents kb top_k).filter
            (fun p => decide (p.2 = c)) <+:
          ((documents.map
              (fun doc => (doc, match_field_to_document mapper field doc kb))).filter
            (fun p => p.2 > 0)).filter (fun p => decide (p.2 = c)))) := by
  refine ⟨fun domain => rfl, fun mapper field documents kb top_k => ?_⟩
  simp only [rank_documents_for_field]
  refine ⟨List.length_take_le _ _, ?_, ?_, ?_⟩
  · exact (sortDesc_pairwise _).sublist (List.take_sublist _ _)
  · rw [List.all_eq_true]
    intro p hp
    have hmem := (sortDesc_perm _).mem_iff.1 (List.take_subset _ _ hp)
    have hf := List.mem_filter.1 hmem
    have hpos : 0 < p.2 := by simpa using hf.2
    rcases List.mem_map.1 hf.1 with ⟨doc, hdoc, rfl⟩
    simp [hpos, hdoc]
  · intro c
    have h := isPrefix_filter (fun p : Document × ℚ => decide (p.2 = c))
      (List.take_prefix top_k (sortDesc ((documents.map
        (fun doc => (doc, match_field_to_document mapper field doc kb))).filter
        (fun p => p.2 > 0))))
    rwa [sortDesc_filter] at h

/-! ## Claim C4: field disambiguation -/

theorem candSim_nonneg (ft : Finset String) (c : String) : 0 ≤ candSim ft c := by
  simp only [candSim]
  split_ifs
  · positivity
  · exact le_refl 0

/-- Full description of the candidate loop of `disambiguate_field`: the
returned score dominates the start score and every candidate's similarity,
and either nothing beat the start (state unchanged) or the returned
candidate is the first one attaining the final (strictly improved)
similarity. -/
theorem disambGo_spec (ft : Finset String) :
    ∀ (l : List String) (best0 : Option String) (s0 : ℚ), 0 ≤ s0 →
      s0 ≤ (disambGo ft best0 s0 l).2 ∧
      (∀ c ∈ l, candSim ft c ≤ (disambGo ft best0 s0 l).2) ∧
      (((disambGo ft best0 s0 l).1 = best0 ∧ (disambGo ft best0 s0 l).2 = s0) ∨
        (∃ pre c post, l = pre ++ c :: post ∧
          (disambGo ft best0 s0 l).1 = some c ∧
          (disambGo ft best0 s0 l).2 = candSim ft c ∧
          s0 < candSim ft c ∧
          (∀ p ∈ pre, candSim ft p < candSim ft c) ∧
          (∀ p ∈ post, candSim ft p ≤ candSim ft c))) := by
  intro l
  induction l with
  | nil =>
    intro best0 s0 h0
    exact ⟨le_refl _, by simp, Or.inl ⟨rfl, rfl⟩⟩
  | cons cand rest ih =>
    intro best0 s0 h0
    by_cases hg : ft ≠ ∅ ∨ ((wordTokens (toLowerStr cand)).toFinset : Finset String) ≠ ∅
    · by_cases hup : candSim ft cand > s0
      · have hred : disambGo ft best0 s0 (cand :: rest) =
            disambGo ft (some cand) (candSim ft cand) rest := by
          simp only [disambGo]
          rw [if_pos hg, if_pos hup]
        have hsim0 : (0:ℚ) ≤ candSim ft cand := candSim_nonneg ft cand
        obtain ⟨ih1, ih2, ih3⟩ := ih (some cand) (candSim ft cand) hsim0
        rw [hred]
        refine ⟨le_trans (le_of_lt hup) ih1, ?_, ?_⟩
        · intro c hc
          rcases List.mem_cons.1 hc with rfl | hc2
          · exact ih1
          · exact ih2 c hc2
        · rcases ih3 with ⟨hb, hs⟩ | ⟨pre, c, post, hdec, hb, hs, hlt, hpre, hpost⟩
          · refine Or.inr ⟨[], cand, rest, rfl, hb, hs, hup, by simp, ?_⟩
            intro p hp
            rw [← hs]
            exact ih2 p hp
          · refine Or.inr ⟨cand :: pre, c, post, by rw [hdec, List.cons_append], hb, hs, ?_, ?_, hpost⟩
            · exact lt_trans hup hlt
            · intro p hp
              rcases List.mem_cons.1 hp with rfl | hp2
              · exact hlt
              · exact hpre p hp2
      · have hred : disambGo ft best0 s0 (cand :: rest) = disambGo ft best0 s0 rest := by
          simp only [disambGo]
          rw [if_pos hg, if_neg hup]
        push_neg at hup
        obtain ⟨ih1, ih2, ih3⟩ := ih best0 s0 h0
        rw [hred]
        refine ⟨ih1, ?_, ?_⟩
        · intro c hc
          rcases List.mem_cons.1 hc with rfl | hc2
          · exact le_trans hup ih1
          · exact ih2 c hc2
        · rcases ih3 with ⟨hb, hs⟩ | ⟨pre, c, post, hdec, hb, hs, hlt, hpre, hpost⟩
          · exact Or.inl ⟨hb, hs⟩
          · refine Or.inr ⟨cand :: pre, c, post, by rw [hdec, List.cons_append], hb, hs, hlt, ?_, hpost⟩
            intro p hp
            rcases List.mem_cons.1 hp with rfl | hp2
            · exact lt_of_le_of_lt hup hlt
            · exact hpre p hp2
    · have hcand0 : candSim ft cand = 0 := by
        push_neg at hg
        simp [candSim, hg.1, hg.2]
      have hred : disambGo ft best0 s0 (cand :: rest) = disambGo ft best0 s0 rest := by
        simp only [disambGo]
        rw [if_neg hg]
      obtain ⟨ih1, ih2, ih3⟩ := ih best0 s0 h0
      rw [hred]
      refine ⟨ih1, ?_, ?_⟩
      · intro c hc
        rcases List.mem_cons.1 hc with rfl | hc2
        · rw [hcand0]; exact le_trans h0 ih1
        · exact ih2 c hc2
      · rcases ih3 with ⟨hb, hs⟩ | ⟨pre, c, post, hdec, hb, hs, hlt, hpre, hpost⟩
        · exact Or.inl ⟨hb, hs⟩
        · refine Or.inr ⟨cand :: pre, c, post, by rw [hdec, List.cons_append], hb, hs, hlt, ?_, hpost⟩
          intro p hp
          rcases List.mem_cons.1 hp with rfl | hp2
          · rw [hcand0]; exact lt_of_le_of_lt h0 hlt
          · exact hpre p hp2

/-- C4, counterexample: with the single candidate `"b"` for the field
`"a"`, the token-set similarity is 0, yet `disambiguate_field` returns
`"b"` (the one-candidate early return skips the similarity check), where
the claim demands absence. -/
theorem C4_counterexample :
    candSim ((wordTokens (toLowerStr "a")).toFinset) "b" = 0 ∧
    disambiguate_field "a" ["b"] = some "b" :=
  ⟨by with_unfolding_all decide, by decide⟩

/-- C4, amended: `disambiguate_field` returns `none` on an empty candidate
list; a singleton candidate list is returned as-is, with no similarity
check (even at zero similarity); and for lists of two or more candidates
the claim holds as stated: the first-seen maximizer of token-set Jaccard
similarity is returned, and `none` is returned when every candidate has
zero similarity. -/
theorem C4_disambiguate_first_maximizer (field_name : String)
    (candidates : List String) :
    (candidates = [] → disambiguate_field field_name candidates = none) ∧
    (∀ c, candidates = [c] → disambiguate_field field_name candidates = some c) ∧
    (2 ≤ candidates.length →
      ((∀ c ∈ candidates,
          candSim ((wordTokens (toLowerStr field_name)).toFinset) c = 0) →
        disambiguate_field field_name candidates = none) ∧
      (∀ c, disambiguate_field field_name candidates = some c →
        ∃ pre post, candidates = pre ++ c :: post ∧
          0 < candSim ((wordTokens (toLowerStr field_name)).toFinset) c ∧
          (∀ p ∈ pre, candSim ((wordTokens (toLowerStr field_name)).toFinset) p <
            candSim ((wordTokens (toLowerStr field_name)).toFinset) c) ∧
          (∀ p ∈ post, candSim ((wordTokens (toLowerStr field_name)).toFinset) p ≤
            candSim ((wordTokens (toLowerStr field_name)).toFinset) c))) := by
  refine ⟨?_, ?_, ?_⟩
  · rintro rfl; rfl
  · rintro c rfl; rfl
  · intro hlen
    obtain ⟨c1, c2, rest, rfl⟩ : ∃ c1 c2 rest, candidates = c1 :: c2 :: rest := by
      match candidates, hlen with
      | c1 :: c2 :: rest, _ => exact ⟨c1, c2, rest, rfl⟩
    set ft := (wordTokens (toLowerStr field_name)).toFinset with hft
    have hspec := disambGo_spec ft (c1 :: c2 :: rest) none 0 (le_refl 0)
    have hdis : disambiguate_field field_name (c1 :: c2 :: rest) =
        if (disambGo ft none 0 (c1 :: c2 :: rest)).2 > 0
        then (disambGo ft none 0 (c1 :: c2 :: rest)).1 else none := by
      simp only [disambiguate_field, hft]
    constructor
    · intro hzero
      obtain ⟨-, -, hcase⟩ := hspec
      rcases hcase with ⟨-, hs⟩ | ⟨pre, c, post, hdec, -, -, hlt, -, -⟩
      · rw [hdis, hs]
        norm_num
      · exfalso
        have : candSim ft c = 0 := hzero c (by rw [hdec]; simp)
        rw [this] at hlt
        exact lt_irrefl 0 hlt
    · intro c hc
      obtain ⟨-, -, hcase⟩ := hspec
      rcases hcase with ⟨hb, hs⟩ | ⟨pre, c', post, hdec, hb, hs, hlt, hpre, hpost⟩
      · exfalso
        rw [hdis, hs] at hc
        simp at hc
      · rw [hdis, hs] at hc
        rw [if_pos hlt] at hc
        rw [hb] at hc
        obtain rfl : c' = c := Option.some.inj hc
        exact ⟨pre, post, hdec, hlt, hpre, hpost⟩

/-- C4, witness for the amended theorem: the two-candidate list
`["x", "ab"]` for field `"ab"` yields the decomposition around the chosen
candidate `"ab"`. -/
theorem C4_disambiguate_first_maximizer_witness :
    ∃ pre post, ["x", "ab"] = pre ++ "ab" :: post ∧
      0 < candSim ((wordTokens (toLowerStr "ab")).toFinset) "ab" ∧
      (∀ p ∈ pre, candSim ((wordTokens (toLowerStr "ab")).toFinset) p <
        candSim ((wordTokens (toLowerStr "ab")).toFinset) "ab") ∧
      (∀ p ∈ post, candSim ((wordTokens (toLowerStr "ab")).toFinset) p ≤
        candSim ((wordTokens (toLowerStr "ab")).toFinset) "ab") :=
  (C4_disambiguate_first_maximizer "ab" ["x", "ab"]).2.2 (by norm_num) |>.2 "ab"
    (by with_unfolding_all decide)

/-! ## Claim C6: value extraction -/

/-- A sentence segment qualifies when it contains some (lowercased) field
keyword and its stripped form has length strictly between 10 and 500. -/
def extractQual (field_keywords : List String) (sentence : String) : Prop :=
  field_keywords.any (fun kw => containsStr kw (toLowerStr sentence)) = true ∧
  (stripStr sentence).length > 10 ∧ (stripStr sentence).length < 500

theorem extractGo_spec (field_keywords : List String) :
    ∀ l : List String,
      (extractGo field_keywords l = none → ∀ s ∈ l, ¬ extractQual field_keywords s) ∧
      (∀ v, extractGo field_keywords l = some v →
        ∃ pre s post, l = pre ++ s :: post ∧ extractQual field_keywords s ∧
          v = stripStr s ∧ ∀ s' ∈ pre, ¬ extractQual field_keywords s') := by
  intro l
  induction l with
  | nil => exact ⟨fun _ s hs => absurd hs (List.not_mem_nil s), fun v hv => by cases hv⟩
  | cons s rest ih =>
    by_cases h1 : field_keywords.any (fun kw => containsStr kw (toLowerStr s)) = true
    · by_cases h2 : (stripStr s).length > 10 ∧ (stripStr s).length < 500
      · have hred : extractGo field_keywords (s :: rest) = some (stripStr s) := by
          simp only [extractGo]
          rw [if_pos h1, if_pos h2]
        refine ⟨?_, fun v hv => ?_⟩
        · intro hn
          rw [hred] at hn
          cases hn
        · rw [hred] at hv
          exact ⟨[], s, rest, rfl, ⟨h1, h2.1, h2.2⟩, (Option.some.inj hv).symm, by simp⟩
      · have hred : extractGo field_keywords (s :: rest) = extractGo field_keywords rest := by
          simp only [extractGo]
          rw [if_pos h1, if_neg h2]
        have hnq : ¬ extractQual field_keywords s := fun hq => h2 ⟨hq.2.1, hq.2.2⟩
        refine ⟨fun hn s' hs' => ?_, fun v hv => ?_⟩
        · rcases List.mem_cons.1 hs' with rfl | hs2
          · exact hnq
          · exact ih.1 (hred ▸ hn) s' hs2
        · rw [hred] at hv
          obtain ⟨pre, seg, post, hdec, hq, hv2, hpre⟩ := ih.2 v hv
          refine ⟨s :: pre, seg, post, by rw [hdec, List.cons_append], hq, hv2, ?_⟩
          intro s' hs'
          rcases List.mem_cons.1 hs' with rfl | hs2
          · exact hnq
          · exact hpre s' hs2
    · have hred : extractGo field_keywords (s :: rest) = extractGo field_keywords rest := by
        simp only [extractGo]
        rw [if_neg h1]
      have hnq : ¬ extractQual field_keywords s := fun hq => h1 hq.1
      refine ⟨fun hn s' hs' => ?_, fun v hv => ?_⟩
      · rcases List.mem_cons.1 hs' with rfl | hs2
        · exact hnq
        · exact ih.1 (hred ▸ hn) s' hs2
      · rw [hred] at hv
        obtain ⟨pre, seg, post, hdec, hq, hv2, hpre⟩ := ih.2 v hv
        refine ⟨s :: pre, seg, post, by rw [hdec, List.cons_append], hq, hv2, ?_⟩
        intro s' hs'
        rcases List.mem_cons.1 hs' with rfl | hs2
        · exact hnq
        · exact hpre s' hs2

theorem extract_some_length (field_name content v : String)
    (h : _extract_value_from_match field_name content = some v) :
    10 < v.length ∧ v.length < 500 := by
  obtain ⟨pre, s, post, -, hq, rfl, -⟩ :=
    ((extractGo_spec (wsTokens (toLowerStr field_name))) (splitSentences content)).2 v h
  exact ⟨hq.2.1, hq.2.2⟩

/-! ## Inversion lemmas for the four strategies -/

theorem semantic_inv (query : String) (documents : List Document)
    (m : RetrievalMatch) (h : _semantic_match query documents = some m) :
    ∃ best : Document,
      (semanticBest query none 0 documents).1 = some best ∧
      0 < (semanticBest query none 0 documents).2 ∧
      m.field_id = (wsTokens query).headD "" ∧
      m.field_name = query ∧
      m.source_doc_id = best.id ∧
      m.retrieved_value = _extract_value_from_match query best.content ∧
      m.confidence_score = min (semanticBest query none 0 documents).2 1 ∧
      m.match_type = "semantic" ∧
      m.domain_context = dictGetD best.metadata "type" "" := by
  simp only [_semantic_match] at h
  split at h
  next best heq =>
    split_ifs at h with hpos
    obtain rfl := Option.some.inj h
    exact ⟨best, heq, hpos, rfl, rfl, rfl, rfl, rfl, rfl, rfl⟩
  next heq => cases h

theorem keyword_inv (query : String) (documents : List Document)
    (m : RetrievalMatch) (h : _enhanced_keyword_match query documents = some m) :
    ∃ best : Document,
      (keywordBest query ((wordTokens (toLowerStr query)).toFinset)
        none 0 documents).1 = some best ∧
      (keywordBest query ((wordTokens (toLowerStr query)).toFinset)
        none 0 documents).2 > 1/5 ∧
      m.field_id = (wsTokens query).headD "" ∧
      m.field_name = query ∧
      m.source_doc_id = best.id ∧
      m.retrieved_value = _extract_value_from_match query best.content ∧
      m.confidence_score = (keywordBest query
        ((wordTokens (toLowerStr query)).toFinset) none 0 documents).2 ∧
      m.match_type = "keyword" ∧
      m.domain_context = dictGetD best.metadata "type" "" := by
  simp only [_enhanced_keyword_match] at h
  split at h
  next best heq =>
    split_ifs at h with hpos
    obtain rfl := Option.some.inj h
    exact ⟨best, heq, hpos, rfl, rfl, rfl, rfl, rfl, rfl, rfl⟩
  next heq => cases h

theorem entityGo_inv (field_name : String) (entities : List String) :
    ∀ (documents : List Document) (m : RetrievalMatch),
      entityGo field_name entities documents = some m →
      ∃ doc ∈ documents,
        0 < entities.countP
          (fun entity => containsStr (toLowerStr entity) (toLowerStr doc.content)) ∧
        m.field_id = field_name ∧
        m.field_name = field_name ∧
        m.source_doc_id = doc.id ∧
        m.retrieved_value = _extract_value_from_match field_name doc.content ∧
        m.confidence_score = min ((entities.countP
          (fun entity => containsStr (toLowerStr entity) (toLowerStr doc.content)) : ℚ)
            / entities.length) 1 ∧
        m.match_type = "entity" ∧
        m.domain_context = dictGetD doc.metadata "type" "" := by
  intro documents
  induction documents with
  | nil => intro m h; cases h
  | cons doc rest ih =>
    intro m h
    simp only [entityGo] at h
    split_ifs at h with h1 h2
    · obtain rfl := Option.some.inj h
      exact ⟨doc, List.mem_cons_self doc rest, h1, rfl, rfl, rfl, rfl, rfl, rfl, rfl⟩
    · obtain ⟨d, hd, rest_props⟩ := ih m h
      exact ⟨d, List.mem_cons_of_mem doc hd, rest_props⟩
    · obtain ⟨d, hd, rest_props⟩ := ih m h
      exact ⟨d, List.mem_cons_of_mem doc hd, rest_props⟩

theorem ruleDocGo_inv (field_name rule_category : String) (keywords : List String) :
    ∀ (documents : List Document) (m : RetrievalMatch),
      ruleDocGo field_name rule_category keywords documents = some m →
      ∃ doc ∈ documents,
        (truthy (dictGet doc.metadata "section") || truthy (dictGet doc.metadata "type")) = true ∧
        keywords.any (fun kw => containsStr (toLowerStr kw) (toLowerStr doc.content)) = true ∧
        m.field_id = field_name ∧
        m.field_name = field_name ∧
        m.source_doc_id = doc.id ∧
        m.retrieved_value = _extract_value_from_match field_name doc.content ∧
        m.confidence_score = 18/25 ∧
        m.match_type = "rule-based" ∧
        m.domain_context = dictGetD doc.metadata "type" "" := by
  intro documents
  induction documents with
  | nil => intro m h; cases h
  | cons doc rest ih =>
    intro m h
    simp only [ruleDocGo] at h
    split_ifs at h with h1 h2
    · obtain rfl := Option.some.inj h
      exact ⟨doc, List.mem_cons_self doc rest, h1, h2, rfl, rfl, rfl, rfl, rfl, rfl, rfl⟩
    · obtain ⟨d, hd, rest_props⟩ := ih m h
      exact ⟨d, List.mem_cons_of_mem doc hd, rest_props⟩
    · obtain ⟨d, hd, rest_props⟩ := ih m h
      exact ⟨d, List.mem_cons_of_mem doc hd, rest_props⟩

theorem ruleCatGo_inv (field_name : String) (documents : List Document) :
    ∀ (rules : List (String × List String)) (m : RetrievalMatch),
      ruleCatGo field_name documents rules = some m →
      ∃ rule_category keywords, (rule_category, keywords) ∈ rules ∧
        keywords.any (fun kw => containsStr (toLowerStr kw) (toLowerStr field_name)) = true ∧
        ruleDocGo field_name rule_category keywords documents = some m := by
  intro rules
  induction rules with
  | nil => intro m h; cases h
  | cons p rest ih =>
    intro m h
    obtain ⟨rule_category, keywords⟩ := p
    simp only [ruleCatGo] at h
    split_ifs at h with h1
    · split at h
      next r heq =>
        obtain rfl := Option.some.inj h
        exact ⟨rule_category, keywords, List.mem_cons_self _ _, h1, heq⟩
      next heq =>
        obtain ⟨cat, kws, hmem, hany, hdoc⟩ := ih m h
        exact ⟨cat, kws, List.mem_cons_of_mem _ hmem, hany, hdoc⟩
    · obtain ⟨cat, kws, hmem, hany, hdoc⟩ := ih m h
      exact ⟨cat, kws, List.mem_cons_of_mem _ hmem, hany, hdoc⟩

/-- Any match returned by `retrieve` is the value of one of the four
strategy functions on the same inputs. -/
theorem retrieve_cases (domain : String) (field : FormField)
    (documents : List Document) (m : RetrievalMatch)
    (h : retrieve domain field documents = some m) :
    _semantic_match (queryOf field) documents = some m ∨
    _entity_match field.name documents = some m ∨
    _domain_rule_match domain field.name documents = some m ∨
    _enhanced_keyword_match (queryOf field) documents = some m := by
  simp only [retrieve] at h
  split_ifs at h with h1 h2 h3 h4
  · exact Or.inl h
  · exact Or.inr (Or.inl h)
  · exact Or.inr (Or.inr (Or.inl h))
  · exact Or.inr (Or.inr (Or.inr h))

/-- C6: `_extract_value_from_match` returns the strip of the first
sentence-like segment containing a lowercased field-name word whose
stripped length lies strictly between 10 and 500 (and `none` exactly when
no segment qualifies); consequently every non-absent `retrieved_value` in
a match returned by `retrieve` has length strictly between 10 and 500. -/
theorem C6_extract_first_and_bounded :
    (∀ field_name content v,
      _extract_value_from_match field_name content = some v →
      ∃ pre s post, splitSentences content = pre ++ s :: post ∧
        extractQual (wsTokens (toLowerStr field_name)) s ∧ v = stripStr s ∧
        ∀ s' ∈ pre, ¬ extractQual (wsTokens (toLowerStr field_name)) s') ∧
    (∀ field_name content,
      _extract_value_from_match field_name content = none →
      ∀ s ∈ splitSentences content, ¬ extractQual (wsTokens (toLowerStr field_name)) s) ∧
    (∀ domain field documents m v,
      retrieve domain field documents = some m →
      m.retrieved_value = some v → 10 < v.length ∧ v.length < 500) := by
  refine ⟨?_, ?_, ?_⟩
  · intro field_name content v h
    exact ((extractGo_spec (wsTokens (toLowerStr field_name))) (splitSentences content)).2 v h
  · intro field_name content h
    exact ((extractGo_spec (wsTokens (toLowerStr field_name))) (splitSentences content)).1 h
  · intro domain field documents m v hm hv
    rcases retrieve_cases domain field documents m hm with h | h | h | h
    · obtain ⟨best, -, -, -, -, -, hval, -⟩ := semantic_inv _ _ _ h
      exact extract_some_length _ _ v (hval ▸ hv)
    · simp only [_entity_match] at h
      split_ifs at h
      obtain ⟨doc, -, -, -, -, -, hval, -⟩ := entityGo_inv _ _ _ _ h
      exact extract_some_length _ _ v (hval ▸ hv)
    · simp only [_domain_rule_match] at h
      obtain ⟨cat, kws, -, -, hdoc⟩ := ruleCatGo_inv _ _ _ _ h
      obtain ⟨doc, -, -, -, -, -, -, hval, -⟩ := ruleDocGo_inv _ _ _ _ _ hdoc
      exact extract_some_length _ _ v (hval ▸ hv)
    · obtain ⟨best, -, -, -, -, -, hval, -⟩ := keyword_inv _ _ _ h
      exact extract_some_length _ _ v (hval ▸ hv)

/-- C6, witness: the extraction characterization applied to a concrete
field/content pair, with the qualifying segment being the whole content. -/
theorem C6_extract_first_and_bounded_witness :
    ∃ pre s post,
      splitSentences "John Smith, the grantor and seller, agrees to transfer property" =
        pre ++ s :: post ∧
      extractQual (wsTokens (toLowerStr "Seller Name")) s ∧
      ("John Smith, the grantor and seller, agrees to transfer property" : String) =
        stripStr s ∧
      ∀ s' ∈ pre, ¬ extractQual (wsTokens (toLowerStr "Seller Name")) s' :=
  C6_extract_first_and_bounded.1 "Seller Name"
    "John Smith, the grantor and seller, agrees to transfer property"
    "John Smith, the grantor and seller, agrees to transfer property" (by decide)

/-! ## Claim C3: strategy order, thresholds and short-circuit -/

/-- C3: the strategies are consulted in the fixed order semantic (0.75),
entity (0.70), rule-based (0.65), keyword (0.55); the first strategy whose
result clears its threshold supplies the returned match verbatim, carrying
that strategy's tag, and later strategies cannot affect the output; when
no strategy clears its threshold, `retrieve` returns `none` — in every
case at most one match is produced. -/
theorem C3_retrieve_ordered_cascade (domain : String) (field : FormField)
    (documents : List Document) :
    (∀ m, _semantic_match (queryOf field) documents = some m →
      3/4 ≤ m.confidence_score →
      retrieve domain field documents = some m ∧ m.match_type = "semantic") ∧
    (acceptsB (_semantic_match (queryOf field) documents) (3/4) = false →
      ∀ m, _entity_match field.name documents = some m →
      7/10 ≤ m.confidence_score →
      retrieve domain field documents = some m ∧ m.match_type = "entity") ∧
    (acceptsB (_semantic_match (queryOf field) documents) (3/4) = false →
      acceptsB (_entity_match field.name documents) (7/10) = false →
      ∀ m, _domain_rule_match domain field.name documents = some m →
      13/20 ≤ m.confidence_score →
      retrieve domain field documents = some m ∧ m.match_type = "rule-based") ∧
    (acceptsB (_semantic_match (queryOf field) documents) (3/4) = false →
      acceptsB (_entity_match field.name documents) (7/10) = false →
      acceptsB (_domain_rule_match domain field.name documents) (13/20) = false →
      ∀ m, _enhanced_keyword_match (queryOf field) documents = some m →
      11/20 ≤ m.confidence_score →
      retrieve domain field documents = some m ∧ m.match_type = "keyword") ∧
    (acceptsB (_semantic_match (queryOf field) documents) (3/4) = false →
      acceptsB (_entity_match field.name documents) (7/10) = false →
      acceptsB (_domain_rule_match domain field.name documents) (13/20) = false →
      acceptsB (_enhanced_keyword_match (queryOf field) documents) (11/20) = false →
      retrieve domain field documents = none) := by
  refine ⟨?_, ?_, ?_, ?_, ?_⟩
  · intro m hm hc
    have hacc : acceptsB (_semantic_match (queryOf field) documents) (3/4) = true := by
      rw [hm]; simp [acceptsB, hc]
    refine ⟨?_, ?_⟩
    · simp only [retrieve]
      rw [if_pos hacc]
      exact hm
    · obtain ⟨-, -, -, -, -, -, -, -, htype, -⟩ := semantic_inv _ _ _ hm
      exact htype
  · intro hs m hm hc
    have hacc : acceptsB (_entity_match field.name documents) (7/10) = true := by
      rw [hm]; simp [acceptsB, hc]
    refine ⟨?_, ?_⟩
    · simp only [retrieve]
      rw [if_neg (by simp [hs]), if_pos hacc]
      exact hm
    · simp only [_entity_match] at hm
      split_ifs at hm
      obtain ⟨doc, -, -, -, -, -, -, -, htype, -⟩ := entityGo_inv _ _ _ _ hm
      exact htype
  · intro hs he m hm hc
    have hacc : acceptsB (_domain_rule_match domain field.name documents) (13/20) = true := by
      rw [hm]; simp [acceptsB, hc]
    refine ⟨?_, ?_⟩
    · simp only [retrieve]
      rw [if_neg (by simp [hs]), if_neg (by simp [he]), if_pos hacc]
      exact hm
    · simp only [_domain_rule_match] at hm
      obtain ⟨cat, kws, -, -, hdoc⟩ := ruleCatGo_inv _ _ _ _ hm
      obtain ⟨doc, -, -, -, -, -, -, -, -, htype, -⟩ := ruleDocGo_inv _ _ _ _ _ hdoc
      exact htype
  · intro hs he hr m hm hc
    have hacc : acceptsB (_enhanced_keyword_match (queryOf field) documents) (11/20) = true := by
      rw [hm]; simp [acceptsB, hc]
    refine ⟨?_, ?_⟩
    · simp only [retrieve]
      rw [if_neg (by simp [hs]), if_neg (by simp [he]), if_neg (by simp [hr]),
        if_pos hacc]
      exact hm
    · obtain ⟨-, -, -, -, -, -, -, -, htype, -⟩ := keyword_inv _ _ _ hm
      exact htype
  · intro hs he hr hk
    simp only [retrieve]
    rw [if_neg (by simp [hs]), if_neg (by simp [he]), if_neg (by simp [hr]),
      if_neg (by simp [hk])]

/-- C3, witness: on a field whose query coincides with the only document's
content the semantic strategy accepts, and `retrieve` returns exactly its
match, tagged `semantic`. -/
theorem C3_retrieve_ordered_cascade_witness :
    retrieve "generic" ⟨"", "deed", ""⟩ [⟨"d", "deed", []⟩] =
      _semantic_match (queryOf ⟨"", "deed", ""⟩) [⟨"d", "deed", []⟩] ∧
    (retrieve "generic" ⟨"", "deed", ""⟩ [⟨"d", "deed", []⟩]).map
      (fun m => m.match_type) = some "semantic" := by
  rcases hm : _semantic_match (queryOf ⟨"", "deed", ""⟩) [⟨"d", "deed", []⟩] with _ | m
  · exact absurd hm (by with_unfolding_all decide)
  · have hc : (3/4 : ℚ) ≤ m.confidence_score := by
      have hb : acceptsB (_semantic_match (queryOf ⟨"", "deed", ""⟩)
          [⟨"d", "deed", []⟩]) (3/4) = true := by with_unfolding_all decide
      rw [hm] at hb
      simpa [acceptsB] using hb
    obtain ⟨h1, h2⟩ :=
      (C3_retrieve_ordered_cascade "generic" ⟨"", "deed", ""⟩ [⟨"d", "deed", []⟩]).1 m hm hc
    exact ⟨by rw [h1], by rw [h1]; simp [h2]⟩

/-! ## Claim C2: confidence bounds -/

/-- C2, counterexample: the keyword fallback's 1.2× section boost is
applied without clamping, so `retrieve` can return a confidence of 6/5 >
1 (field `age`, document content `age.` with metadata section `age`). -/
theorem C2_counterexample :
    (retrieve "generic" ⟨"", "age", ""⟩ [⟨"d", "age.", [("section", "age")]⟩]).map
      (fun m => m.confidence_score) = some (6/5) ∧ (1 : ℚ) < 6/5 :=
  ⟨by with_unfolding_all decide, by norm_num⟩

/-- The running best score of the keyword loop never exceeds 6/5: each
candidate similarity is a Jaccard value in `[0, 1]`, multiplied by at most
6/5. -/
theorem card_div_card_le_one (A B : Finset String) :
    ((A ∩ B).card : ℚ) / (A ∪ B).card ≤ 1 := by
  rcases Nat.eq_zero_or_pos (A ∪ B).card with h | h
  · rw [h]
    norm_num
  · rw [div_le_one (by exact_mod_cast h)]
    exact_mod_cast Finset.card_le_card
      (Finset.inter_subset_left.trans Finset.subset_union_left)

theorem keywordBest_snd_le (query : String) (qk : Finset String) :
    ∀ (documents : List Document) (best0 : Option Document) (hi0 : ℚ),
      hi0 ≤ 6/5 → (keywordBest query qk best0 hi0 documents).2 ≤ 6/5 := by
  intro documents
  induction documents with
  | nil => intro best0 hi0 h0; exact h0
  | cons doc rest ih =>
    intro best0 hi0 h0
    have hb1 := card_div_card_le_one qk
      ((wordTokens (toLowerStr doc.content ++ " " ++
        String.intercalate " " (doc.metadata.map Prod.snd))).toFinset)
    have hb0 : (0:ℚ) ≤ ((qk ∩ (wordTokens (toLowerStr doc.content ++ " " ++
        String.intercalate " " (doc.metadata.map Prod.snd))).toFinset).card : ℚ) /
        ((qk ∪ (wordTokens (toLowerStr doc.content ++ " " ++
        String.intercalate " " (doc.metadata.map Prod.snd))).toFinset).card) := by
      positivity
    simp only [keywordBest]
    split_ifs <;> refine ih _ _ ?_ <;> nlinarith [hb1, hb0, h0]

/-- C2, amended: every match returned by `retrieve` has a confidence score
in `[0, 6/5]`; for the semantic, entity and rule-based strategies the
score lies in `[0, 1]`, but the keyword fallback applies its 1.2× section
boost without clamping, so a keyword match may carry a confidence up to
6/5. -/
theorem C2_confidence_bounds (domain : String) (field : FormField)
    (documents : List Document) (m : RetrievalMatch)
    (h : retrieve domain field documents = some m) :
    0 ≤ m.confidence_score ∧ m.confidence_score ≤ 6/5 ∧
      (m.match_type ≠ "keyword" → m.confidence_score ≤ 1) := by
  rcases retrieve_cases domain field documents m h with hs | hs | hs | hs
  · obtain ⟨best, -, hpos, -, -, -, -, hconf, htype, -⟩ := semantic_inv _ _ _ hs
    rw [hconf]
    exact ⟨le_min (le_of_lt hpos) (by norm_num),
      le_trans (min_le_right _ _) (by norm_num), fun _ => min_le_right _ _⟩
  · simp only [_entity_match] at hs
    split_ifs at hs
    obtain ⟨doc, -, -, -, -, -, -, hconf, htype, -⟩ := entityGo_inv _ _ _ _ hs
    rw [hconf]
    exact ⟨le_min (by positivity) (by norm_num),
      le_trans (min_le_right _ _) (by norm_num), fun _ => min_le_right _ _⟩
  · simp only [_domain_rule_match] at hs
    obtain ⟨cat, kws, -, -, hdoc⟩ := ruleCatGo_inv _ _ _ _ hs
    obtain ⟨doc, -, -, -, -, -, -, -, hconf, htype, -⟩ := ruleDocGo_inv _ _ _ _ _ hdoc
    rw [hconf]
    norm_num
  · obtain ⟨best, -, hgate, -, -, -, -, hconf, htype, -⟩ := keyword_inv _ _ _ hs
    rw [hconf]
    refine ⟨by linarith, keywordBest_snd_le _ _ _ _ _ (by norm_num), fun hne => ?_⟩
    exact absurd htype hne

/-- C2, witness: the amended bounds at the boosted-keyword input. -/
theorem C2_confidence_bounds_witness :
    ∃ m, retrieve "generic" ⟨"", "age", ""⟩ [⟨"d", "age.", [("section", "age")]⟩] =
      some m ∧ 0 ≤ m.confidence_score ∧ m.confidence_score ≤ 6/5 := by
  rcases hr : retrieve "generic" ⟨"", "age", ""⟩
      [⟨"d", "age.", [("section", "age")]⟩] with _ | m
  · exact absurd hr (by with_unfolding_all decide)
  · obtain ⟨h0, h1, -⟩ := C2_confidence_bounds "generic" ⟨"", "age", ""⟩
      [⟨"d", "age.", [("section", "age")]⟩] m hr
    exact ⟨m, rfl, h0, h1⟩

/-! ## Claim C9: degenerate inputs -/

theorem lowerChar_isWhitespace (c : Char) :
    (lowerChar c).isWhitespace = c.isWhitespace := by
  by_cases h1 : c = 'A'
  · subst h1; rfl
  by_cases h2 : c = 'B'
  · subst h2; rfl
  by_cases h3 : c = 'C'
  · subst h3; rfl
  by_cases h4 : c = 'D'
  · subst h4; rfl
  by_cases h5 : c = 'E'
  · subst h5; rfl
  by_cases h6 : c = 'F'
  · subst h6; rfl
  by_cases h7 : c = 'G'
  · subst h7; rfl
  by_cases h8 : c = 'H'
  · subst h8; rfl
  by_cases h9 : c = 'I'
  · subst h9; rfl
  by_cases h10 : c = 'J'
  · subst h10; rfl
  by_cases h11 : c = 'K'
  · subst h11; rfl
  by_cases h12 : c = 'L'
  · subst h12; rfl
  by_cases h13 : c = 'M'
  · subst h13; rfl
  by_cases h14 : c = 'N'
  · subst h14; rfl
  by_cases h15 : c = 'O'
  · subst h15; rfl
  by_cases h16 : c = 'P'
  · subst h16; rfl
  by_cases h17 : c = 'Q'
  · subst h17; rfl
  by_cases h18 : c = 'R'
  · subst h18; rfl
  by_cases h19 : c = 'S'
  · subst h19; rfl
  by_cases h20 : c = 'T'
  · subst h20; rfl
  by_cases h21 : c = 'U'
  · subst h21; rfl
  by_cases h22 : c = 'V'
  · subst h22; rfl
  by_cases h23 : c = 'W'
  · subst h23; rfl
  by_cases h24 : c = 'X'
  · subst h24; rfl
  by_cases h25 : c = 'Y'
  · subst h25; rfl
  by_cases h26 : c = 'Z'
  · subst h26; rfl
  unfold lowerChar
  rw [if_neg h1, if_neg h2, if_neg h3, if_neg h4, if_neg h5, if_neg h6, if_neg h7, if_neg h8, if_neg h9, if_neg h10, if_neg h11, if_neg h12, if_neg h13, if_neg h14, if_neg h15, if_neg h16, if_neg h17, if_neg h18, if_neg h19, if_neg h20, if_neg h21, if_neg h22, if_neg h23, if_neg h24, if_neg h25, if_neg h26]

theorem isWordChar_not_ws (c : Char) (h : isWordChar c = true) :
    c.isWhitespace = false := by
  by_contra hw
  rw [Bool.not_eq_false] at hw
  simp only [Char.isWhitespace, Bool.or_eq_true, decide_eq_true_eq] at hw
  rcases hw with ((rfl | rfl) | rfl) | rfl <;> exact absurd h (by decide)

theorem runsAux_eq_nil (keep : Char → Bool) :
    ∀ (l cur : List Char),
      (runsAux keep cur l = [] ↔ cur = [] ∧ ∀ c ∈ l, keep c = false) := by
  intro l
  induction l with
  | nil =>
    intro cur
    simp only [runsAux]
    split_ifs with h <;> simp [h]
  | cons c cs ih =>
    intro cur
    simp only [runsAux]
    split_ifs with h1 h2
    · rw [ih]
      simp [h1]
    · rw [ih]
      simp [h1, h2]
    · simp [h2]

theorem splitRuns_eq_nil (keep : Char → Bool) (l : List Char) :
    splitRuns keep l = [] ↔ ∀ c ∈ l, keep c = false := by
  simpa [splitRuns] using runsAux_eq_nil keep l []

theorem wsTokens_eq_nil (s : String) :
    wsTokens s = [] ↔ ∀ c ∈ s.data, c.isWhitespace = true := by
  rw [wsTokens, List.map_eq_nil_iff, splitRuns_eq_nil]
  simp

theorem wordTokens_eq_nil (s : String) :
    wordTokens s = [] ↔ ∀ c ∈ s.data, isWordChar c = false := by
  rw [wordTokens, List.map_eq_nil_iff, splitRuns_eq_nil]

theorem wsTokens_toLower_ne (s : String)
    (h : wsTokens (toLowerStr s) ≠ []) : wsTokens s ≠ [] := by
  intro hnil
  apply h
  rw [wsTokens_eq_nil] at hnil ⊢
  intro c hc
  rcases List.mem_map.1 hc with ⟨c', hc', rfl⟩
  rw [lowerChar_isWhitespace]
  exact hnil c' hc'

theorem wordTokens_toLower_ne_ws (s : String)
    (h : wordTokens (toLowerStr s) ≠ []) : wsTokens s ≠ [] := by
  intro hnil
  apply h
  rw [wsTokens_eq_nil] at hnil
  rw [wordTokens_eq_nil]
  intro c hc
  rcases List.mem_map.1 hc with ⟨c', hc', rfl⟩
  by_contra hbc
  rw [Bool.not_eq_false] at hbc
  have hw := isWordChar_not_ws _ hbc
  rw [lowerChar_isWhitespace, hnil c' hc'] at hw
  cases hw

theorem semanticBest_snd_cases (query : String) :
    ∀ (documents : List Document) (best0 : Option Document) (hi0 : ℚ),
      (semanticBest query best0 hi0 documents).2 = hi0 ∨
      ∃ doc ∈ documents, (semanticBest query best0 hi0 documents).2 =
        _calculate_similarity_score (toLowerStr query) (toLowerStr doc.content) := by
  intro documents
  induction documents with
  | nil => intro best0 hi0; exact Or.inl rfl
  | cons doc rest ih =>
    intro best0 hi0
    simp only [semanticBest]
    split_ifs with h
    · rcases ih (some doc) (_calculate_similarity_score (toLowerStr query)
        (toLowerStr doc.content)) with h2 | ⟨d, hd, h2⟩
      · exact Or.inr ⟨doc, List.mem_cons_self doc rest, h2⟩
      · exact Or.inr ⟨d, List.mem_cons_of_mem doc hd, h2⟩
    · rcases ih best0 hi0 with h2 | ⟨d, hd, h2⟩
      · exact Or.inl h2
      · exact Or.inr ⟨d, List.mem_cons_of_mem doc hd, h2⟩

/-- The per-document (possibly boosted) similarity computed inside the
keyword loop. -/
def kwSim (query : String) (qk : Finset String) (doc : Document) : ℚ :=
  let dk := (wordTokens (toLowerStr doc.content ++ " " ++
    String.intercalate " " (doc.metadata.map Prod.snd))).toFinset
  let similarity : ℚ :=
    if (qk ∪ dk).card > 0 then ((qk ∩ dk).card : ℚ) / (qk ∪ dk).card else 0
  if truthy (dictGet doc.metadata "section") ∧
      containsStr (toLowerStr (dictGetD doc.metadata "section" "")) (toLowerStr query)
  then similarity * (6/5) else similarity

theorem keywordBest_cons (query : String) (qk : Finset String)
    (best0 : Option Document) (hi0 : ℚ) (doc : Document) (rest : List Document) :
    keywordBest query qk best0 hi0 (doc :: rest) =
      if qk ≠ ∅ ∨ ((wordTokens (toLowerStr doc.content ++ " " ++
          String.intercalate " " (doc.metadata.map Prod.snd))).toFinset : Finset String) ≠ ∅
      then
        (if kwSim query qk doc > hi0
          then keywordBest query qk (some doc) (kwSim query qk doc) rest
          else keywordBest query qk best0 hi0 rest)
      else keywordBest query qk best0 hi0 rest := rfl

theorem keywordBest_snd_cases (query : String) (qk : Finset String) :
    ∀ (documents : List Document) (best0 : Option Document) (hi0 : ℚ),
      (keywordBest query qk best0 hi0 documents).2 = hi0 ∨
      ∃ doc ∈ documents, (keywordBest query qk best0 hi0 documents).2 =
        kwSim query qk doc := by
  intro documents
  induction documents with
  | nil => intro best0 hi0; exact Or.inl rfl
  | cons doc rest ih =>
    intro best0 hi0
    rw [keywordBest_cons]
    split_ifs with h1 h2
    · rcases ih (some doc) (kwSim query qk doc) with h3 | ⟨d, hd, h3⟩
      · exact Or.inr ⟨doc, List.mem_cons_self doc rest, h3⟩
      · exact Or.inr ⟨d, List.mem_cons_of_mem doc hd, h3⟩
    · rcases ih best0 hi0 with h3 | ⟨d, hd, h3⟩
      · exact Or.inl h3
      · exact Or.inr ⟨d, List.mem_cons_of_mem doc hd, h3⟩
    · rcases ih best0 hi0 with h3 | ⟨d, hd, h3⟩
      · exact Or.inl h3
      · exact Or.inr ⟨d, List.mem_cons_of_mem doc hd, h3⟩

theorem simScore_pos_query_ne (query content : String)
    (h : 0 < _calculate_similarity_score (toLowerStr query) content) :
    wsTokens (toLowerStr query) ≠ [] := by
  simp only [_calculate_similarity_score] at h
  split_ifs at h with h1 h2
  · exact absurd h (lt_irrefl 0)
  · push_neg at h1
    intro hnil
    apply h1.1
    rw [hnil]
    rfl
  · exact absurd h (lt_irrefl 0)

theorem kwSim_pos_qk_ne (query : String) (qk : Finset String) (doc : Document)
    (h : 0 < kwSim query qk doc) : qk ≠ ∅ := by
  intro hqk
  rw [hqk] at h
  simp only [kwSim, Finset.empty_inter, Finset.card_empty, Nat.cast_zero,
    zero_div, ite_self, zero_mul] at h
  exact absurd h (lt_irrefl 0)

theorem ruleCatGo_nil (field_name : String) :
    ∀ rules : List (String × List String), ruleCatGo field_name [] rules = none := by
  intro rules
  induction rules with
  | nil => rfl
  | cons p rest ih =>
    obtain ⟨cat, kws⟩ := p
    simp only [ruleCatGo]
    split_ifs with h
    · exact ih
    · exact ih

/-- C9: `retrieve` on an empty document list returns `none` (every strategy
yields no match), and whenever the semantic or keyword strategy builds a
match — the two places performing `query.split()[0]` — the query's
whitespace token list is nonempty, so the indexing is never reached with
an empty token list and `field_id` is its genuine first token. -/
theorem C9_degenerate_inputs :
    (∀ (domain : String) (field : FormField), retrieve domain field [] = none) ∧
    (∀ (query : String) (documents : List Document) (m : RetrievalMatch),
      _semantic_match query documents = some m →
      wsTokens query ≠ [] ∧ m.field_id = (wsTokens query).headD "") ∧
    (∀ (query : String) (documents : List Document) (m : RetrievalMatch),
      _enhanced_keyword_match query documents = some m →
      wsTokens query ≠ [] ∧ m.field_id = (wsTokens query).headD "") := by
  refine ⟨?_, ?_, ?_⟩
  · intro domain field
    have hsem : _semantic_match (queryOf field) [] = none := rfl
    have hent : _entity_match field.name [] = none := by
      simp only [_entity_match]
      split_ifs <;> rfl
    have hrule : _domain_rule_match domain field.name [] = none := by
      simp only [_domain_rule_match]
      exact ruleCatGo_nil field.name _
    have hkw : _enhanced_keyword_match (queryOf field) [] = none := rfl
    simp only [retrieve, hsem, hent, hrule, hkw]
    rfl
  · intro query documents m hm
    obtain ⟨best, -, hpos, hid, -⟩ := semantic_inv _ _ _ hm
    refine ⟨?_, hid⟩
    rcases semanticBest_snd_cases query documents none 0 with hc | ⟨doc, -, hc⟩
    · rw [hc] at hpos
      exact absurd hpos (lt_irrefl 0)
    · rw [hc] at hpos
      exact wsTokens_toLower_ne query (simScore_pos_query_ne query _ hpos)
  · intro query documents m hm
    obtain ⟨best, -, hgate, hid, -⟩ := keyword_inv _ _ _ hm
    refine ⟨?_, hid⟩
    rcases keywordBest_snd_cases query ((wordTokens (toLowerStr query)).toFinset)
        documents none 0 with hc | ⟨doc, -, hc⟩
    · rw [hc] at hgate
      norm_num at hgate
    · rw [hc] at hgate
      have hqk : ((wordTokens (toLowerStr query)).toFinset : Finset String) ≠ ∅ :=
        kwSim_pos_qk_ne query _ doc (by linarith)
      apply wordTokens_toLower_ne_ws
      intro hnil
      apply hqk
      rw [hnil]
      rfl

/-- C9, witness: empty-list conjunct at a concrete field, and the
semantic-strategy conjunct at a concrete accepted match. -/
theorem C9_degenerate_inputs_witness :
    retrieve "medical" ⟨"f1", "Diagnosis", "primary"⟩ [] = none ∧
    wsTokens "deed " ≠ [] ∧
    (_semantic_match "deed " [⟨"d", "deed", []⟩]).map (fun m => m.field_id) =
      some "deed" := by
  refine ⟨C9_degenerate_inputs.1 "medical" ⟨"f1", "Diagnosis", "primary"⟩, ?_⟩
  rcases hm : _semantic_match "deed " [⟨"d", "deed", []⟩] with _ | m
  · exact absurd hm (by with_unfolding_all decide)
  · obtain ⟨hne, hid⟩ := C9_degenerate_inputs.2.1 "deed " [⟨"d", "deed", []⟩] m hm
    refine ⟨hne, ?_⟩
    rw [Option.map_some']
    rw [hid]
    decide

/-! ## Claim C5: domain-rule strategy -/

/-- A rule category's keyword list matches a field name when some keyword
occurs in the lowercased field name. -/
def ruleCatHit (keywords : List String) (field_name : String) : Bool :=
  keywords.any (fun kw => containsStr (toLowerStr kw) (toLowerStr field_name))

/-- A document qualifies for a rule category when its metadata holds a
truthy (non-empty) `section` or `type` value and its content contains a
rule keyword. -/
def ruleDocHit (keywords : List String) (doc : Document) : Bool :=
  (truthy (dictGet doc.metadata "section") || truthy (dictGet doc.metadata "type")) &&
    keywords.any (fun kw => containsStr (toLowerStr kw) (toLowerStr doc.content))

/-- C5, counterexample: domain `medical`, field `age`, one document whose
metadata HAS the `section` key (with empty value) and whose content
contains the rule keyword `age` — the claim demands a 0.72 rule-based
match, but the code tests `metadata.get(...)` truthiness, the empty value
is falsy, and the strategy returns `none`. -/
theorem C5_counterexample :
    (List.lookup "section" [("section", "")]).isSome = true ∧
    ruleCatHit ["age", "dob", "birth"] "age" = true ∧
    ("age", ["age", "dob", "birth"]) ∈ (List.lookup "medical" domain_rules).getD [] ∧
    (["age", "dob", "birth"].any
      (fun kw => containsStr (toLowerStr kw) (toLowerStr "age"))) = true ∧
    _domain_rule_match "medical" "age" [⟨"d", "age", [("section", "")]⟩] = none := by
  refine ⟨by decide, by decide, by decide, by decide, by decide⟩

theorem ruleDocGo_first (field_name rule_category : String) (keywords : List String) :
    ∀ (documents : List Document) (m : RetrievalMatch),
      ruleDocGo field_name rule_category keywords documents = some m →
      ∃ pre doc post, documents = pre ++ doc :: post ∧
        ruleDocHit keywords doc = true ∧
        m.source_doc_id = doc.id ∧ m.field_id = field_name ∧
        m.field_name = field_name ∧
        m.retrieved_value = _extract_value_from_match field_name doc.content ∧
        m.confidence_score = 18/25 ∧ m.match_type = "rule-based" ∧
        (∀ d ∈ pre, ruleDocHit keywords d = false) := by
  intro documents
  induction documents with
  | nil => intro m h; cases h
  | cons doc rest ih =>
    intro m h
    simp only [ruleDocGo] at h
    split_ifs at h with h1 h2
    · obtain rfl := Option.some.inj h
      exact ⟨[], doc, rest, rfl, by simp [ruleDocHit, h1, h2], rfl, rfl, rfl, rfl,
        rfl, rfl, by simp⟩
    · obtain ⟨pre, d, post, hdec, hhit, hrest⟩ := ih m h
      refine ⟨doc :: pre, d, post, by rw [hdec, List.cons_append], hhit, ?_⟩
      obtain ⟨ha, hb, hc, hd, he, hf, hpre⟩ := hrest
      refine ⟨ha, hb, hc, hd, he, hf, ?_⟩
      intro d2 hd2
      rcases List.mem_cons.1 hd2 with rfl | hd3
      · simp [ruleDocHit, h2]
      · exact hpre d2 hd3
    · obtain ⟨pre, d, post, hdec, hhit, hrest⟩ := ih m h
      refine ⟨doc :: pre, d, post, by rw [hdec, List.cons_append], hhit, ?_⟩
      obtain ⟨ha, hb, hc, hd, he, hf, hpre⟩ := hrest
      refine ⟨ha, hb, hc, hd, he, hf, ?_⟩
      intro d2 hd2
      rcases List.mem_cons.1 hd2 with rfl | hd3
      · simp [ruleDocHit, h1]
      · exact hpre d2 hd3

theorem ruleDocGo_none_inv (field_name rule_category : String) (keywords : List String) :
    ∀ documents : List Document,
      ruleDocGo field_name rule_category keywords documents = none →
      ∀ d ∈ documents, ruleDocHit keywords d = false := by
  intro documents
  induction documents with
  | nil => intro _ d hd; cases hd
  | cons doc rest ih =>
    intro h d hd
    by_cases h1 : (truthy (dictGet doc.metadata "section") ||
        truthy (dictGet doc.metadata "type")) = true
    · by_cases h2 : (keywords.any
          (fun kw => containsStr (toLowerStr kw) (toLowerStr doc.content))) = true
      · exfalso
        have hne : ruleDocGo field_name rule_category keywords (doc :: rest) ≠ none := by
          simp only [ruleDocGo]
          rw [if_pos h1, if_pos h2]
          exact Option.some_ne_none _
        exact hne h
      · have hred : ruleDocGo field_name rule_category keywords (doc :: rest) =
            ruleDocGo field_name rule_category keywords rest := by
          simp only [ruleDocGo]
          rw [if_pos h1, if_neg h2]
        rcases List.mem_cons.1 hd with rfl | hd2
        · have h2' : (keywords.any
              (fun kw => containsStr (toLowerStr kw) (toLowerStr d.content))) = false := by
            simpa using h2
          simp [ruleDocHit, h2']
        · exact ih (hred ▸ h) d hd2
    · have hred : ruleDocGo field_name rule_category keywords (doc :: rest) =
          ruleDocGo field_name rule_category keywords rest := by
        simp only [ruleDocGo]
        rw [if_neg h1]
      rcases List.mem_cons.1 hd with rfl | hd2
      · have h1' : (truthy (dictGet d.metadata "section") ||
            truthy (dictGet d.metadata "type")) = false := by
          simpa using h1
        simp [ruleDocHit, h1']
      · exact ih (hred ▸ h) d hd2

theorem ruleDocGo_of_none (field_name rule_category : String) (keywords : List String) :
    ∀ documents : List Document,
      (∀ d ∈ documents, ruleDocHit keywords d = false) →
      ruleDocGo field_name rule_category keywords documents = none := by
  intro documents
  induction documents with
  | nil => intro _; rfl
  | cons doc rest ih =>
    intro h
    have hdoc : ruleDocHit keywords doc = false := h doc (List.mem_cons_self doc rest)
    have hrest : ∀ d ∈ rest, ruleDocHit keywords d = false :=
      fun d hd => h d (List.mem_cons_of_mem doc hd)
    by_cases h1 : (truthy (dictGet doc.metadata "section") ||
        truthy (dictGet doc.metadata "type")) = true
    · by_cases h2 : (keywords.any
          (fun kw => containsStr (toLowerStr kw) (toLowerStr doc.content))) = true
      · exfalso
        simp [ruleDocHit, h1, h2] at hdoc
      · rw [show ruleDocGo field_name rule_category keywords (doc :: rest) =
            ruleDocGo field_name rule_category keywords rest from by
          simp only [ruleDocGo]; rw [if_pos h1, if_neg h2]]
        exact ih hrest
    · rw [show ruleDocGo field_name rule_category keywords (doc :: rest) =
          ruleDocGo field_name rule_category keywords rest from by
        simp only [ruleDocGo]; rw [if_neg h1]]
      exact ih hrest

theorem ruleCatGo_none_inv (field_name : String) (documents : List Document) :
    ∀ rules : List (String × List String),
      ruleCatGo field_name documents rules = none →
      ∀ p ∈ rules, ruleCatHit p.2 field_name = true →
        ruleDocGo field_name p.1 p.2 documents = none := by
  intro rules
  induction rules with
  | nil => intro _ p hp; cases hp
  | cons q rest ih =>
    obtain ⟨cat, kws⟩ := q
    intro h p hp hhit
    simp only [ruleCatGo] at h
    split_ifs at h with h1
    · rcases List.mem_cons.1 hp with rfl | hp2
      · rcases hdoc : ruleDocGo field_name cat kws documents with _ | m2
        · rfl
        · rw [hdoc] at h
          cases h
      · rcases hdoc2 : ruleDocGo field_name cat kws documents with _ | m2
        · rw [hdoc2] at h
          exact ih h p hp2 hhit
        · rw [hdoc2] at h
          cases h
    · rcases List.mem_cons.1 hp with rfl | hp2
      · exact absurd hhit (by simpa [ruleCatHit] using h1)
      · exact ih h p hp2 hhit

/-- C5, amended: the strategy scans the configured domain's rule
categories in table order; a returned match carries the constant
confidence 0.72, the tag `rule-based` and the bare field name as both
identifiers, and is built from the first document (in input order)
qualifying for some rule category matching the field name — where
"qualifying" requires a `section` or `type` metadata value that is
non-empty (Python truthiness), not merely a present key — and content
containing a rule keyword; conversely, when no document qualifies for any
matching category the strategy returns absent, and when some document
qualifies for some matching category a match is produced. -/
theorem C5_domain_rule_first_qualifying (domain field_name : String)
    (documents : List Document) :
    (∀ m, _domain_rule_match domain field_name documents = some m →
      m.confidence_score = 18/25 ∧ m.match_type = "rule-based" ∧
      m.field_id = field_name ∧ m.field_name = field_name ∧
      ∃ rule_category keywords,
        (rule_category, keywords) ∈ (List.lookup domain domain_rules).getD [] ∧
        ruleCatHit keywords field_name = true ∧
        ∃ pre doc post, documents = pre ++ doc :: post ∧
          ruleDocHit keywords doc = true ∧
          m.source_doc_id = doc.id ∧
          (∀ d ∈ pre, ruleDocHit keywords d = false)) ∧
    ((∀ p ∈ (List.lookup domain domain_rules).getD [],
        ruleCatHit p.2 field_name = true →
        ∀ d ∈ documents, ruleDocHit p.2 d = false) →
      _domain_rule_match domain field_name documents = none) ∧
    (∀ rule_category keywords,
      (rule_category, keywords) ∈ (List.lookup domain domain_rules).getD [] →
      ruleCatHit keywords field_name = true →
      (∃ d ∈ documents, ruleDocHit keywords d = true) →
      (_domain_rule_match domain field_name documents).isSome = true) := by
  refine ⟨?_, ?_, ?_⟩
  · intro m hm
    simp only [_domain_rule_match] at hm
    obtain ⟨cat, kws, hmem, hany, hdoc⟩ := ruleCatGo_inv _ _ _ _ hm
    obtain ⟨pre, doc, post, hdec, hhit, hsrc, hfid, hfname, -, hconf, htype, hpre⟩ :=
      ruleDocGo_first _ _ _ _ _ hdoc
    exact ⟨hconf, htype, hfid, hfname,
      cat, kws, hmem, by simpa [ruleCatHit] using hany,
      pre, doc, post, hdec, hhit, hsrc, hpre⟩
  · intro hno
    simp only [_domain_rule_match]
    generalize hrules : (List.lookup domain domain_rules).getD [] = rules at hno
    clear hrules
    induction rules with
    | nil => rfl
    | cons q rest ih =>
      obtain ⟨cat, kws⟩ := q
      simp only [ruleCatGo]
      split_ifs with h1
      · have hdn : ruleDocGo field_name cat kws documents = none :=
          ruleDocGo_of_none _ _ _ _
            (hno (cat, kws) (List.mem_cons_self _ _) (by simpa [ruleCatHit] using h1))
        rw [hdn]
        exact ih (fun p hp => hno p (List.mem_cons_of_mem _ hp))
      · exact ih (fun p hp => hno p (List.mem_cons_of_mem _ hp))
  · intro cat kws hmem hhit ⟨d, hd, hdhit⟩
    rcases hres : _domain_rule_match domain field_name documents with _ | m
    · exfalso
      simp only [_domain_rule_match] at hres
      have hdn := ruleCatGo_none_inv field_name documents _ hres (cat, kws) hmem hhit
      have := ruleDocGo_none_inv field_name cat kws documents hdn d hd
      rw [hdhit] at this
      cases this
    · rfl

/-- C5, witness for the amended theorem: a qualifying document (non-empty
`section` value) produces a rule-based match. -/
theorem C5_domain_rule_first_qualifying_witness :
    (_domain_rule_match "medical" "age" [⟨"d", "age", [("section", "x")]⟩]).isSome = true :=
  (C5_domain_rule_first_qualifying "medical" "age"
      [⟨"d", "age", [("section", "x")]⟩]).2.2 "age" ["age", "dob", "birth"]
    (by decide) (by decide)
    ⟨⟨"d", "age", [("section", "x")]⟩, by decide, by decide⟩

/-! ## Claim C10: identifiers in a returned match -/

/-- C10: the identifiers of a returned match are derived only from the
field's `name` and `context`: a semantic or keyword match carries the full
query (name, space, context) as `field_name` and its first
whitespace-delimited token as `field_id`, while an entity or rule-based
match carries the bare field name as both; the field's `id` attribute
never influences the result of `retrieve`. -/
theorem C10_identifiers_from_name_and_context (domain : String)
    (field : FormField) (documents : List Document) :
    (∀ m, retrieve domain field documents = some m →
      ((m.match_type = "semantic" ∨ m.match_type = "keyword") →
        m.field_name = field.name ++ " " ++ field.context ∧
        m.field_id = (wsTokens (field.name ++ " " ++ field.context)).headD "") ∧
      ((m.match_type = "entity" ∨ m.match_type = "rule-based") →
        m.field_id = field.name ∧ m.field_name = field.name)) ∧
    (∀ x y : String,
      retrieve domain { field with id := x } documents =
        retrieve domain { field with id := y } documents) := by
  constructor
  · intro m hm
    rcases retrieve_cases domain field documents m hm with hs | hs | hs | hs
    · obtain ⟨best, -, -, hid, hname, -, -, -, htype, -⟩ := semantic_inv _ _ _ hs
      refine ⟨fun _ => ⟨hname, hid⟩, fun hor => ?_⟩
      rw [htype] at hor
      rcases hor with hbad | hbad <;> exact absurd hbad (by decide)
    · simp only [_entity_match] at hs
      split_ifs at hs
      obtain ⟨doc, -, -, hid, hname, -, -, -, htype, -⟩ := entityGo_inv _ _ _ _ hs
      refine ⟨fun hor => ?_, fun _ => ⟨hid, hname⟩⟩
      rw [htype] at hor
      rcases hor with hbad | hbad <;> exact absurd hbad (by decide)
    · simp only [_domain_rule_match] at hs
      obtain ⟨cat, kws, -, -, hdoc⟩ := ruleCatGo_inv _ _ _ _ hs
      obtain ⟨doc, -, -, -, hid, hname, -, -, -, htype, -⟩ := ruleDocGo_inv _ _ _ _ _ hdoc
      refine ⟨fun hor => ?_, fun _ => ⟨hid, hname⟩⟩
      rw [htype] at hor
      rcases hor with hbad | hbad <;> exact absurd hbad (by decide)
    · obtain ⟨best, -, -, hid, hname, -, -, -, htype, -⟩ := keyword_inv _ _ _ hs
      refine ⟨fun _ => ⟨hname, hid⟩, fun hor => ?_⟩
      rw [htype] at hor
      rcases hor with hbad | hbad <;> exact absurd hbad (by decide)
  · intro x y
    rfl

/-- C10, witness: on a keyword match the identifiers are the query and its
first token, independently of the field's `id` attribute. -/
theorem C10_identifiers_from_name_and_context_witness :
    ∃ m, retrieve "generic" ⟨"zz", "age", ""⟩ [⟨"d", "age.", [("section", "age")]⟩] =
        some m ∧
      m.field_name = "age" ++ " " ++ "" ∧ m.field_id = "age" := by
  rcases hr : retrieve "generic" ⟨"zz", "age", ""⟩
      [⟨"d", "age.", [("section", "age")]⟩] with _ | m
  · exact absurd hr (by with_unfolding_all decide)
  · have h := (C10_identifiers_from_name_and_context "generic" ⟨"zz", "age", ""⟩
      [⟨"d", "age.", [("section", "age")]⟩]).1 m hr
    have ht : (retrieve "generic" ⟨"zz", "age", ""⟩
        [⟨"d", "age.", [("section", "age")]⟩]).map (fun x => x.match_type) =
        some "keyword" := by
      with_unfolding_all decide
    rw [hr, Option.map_some'] at ht
    have htype : m.match_type = "keyword" := Option.some.inj ht
    obtain ⟨hname, hid⟩ := h.1 (Or.inr htype)
    refine ⟨m, rfl, hname, ?_⟩
    rw [hid]
    decide

end CIDC
